import Mathlib

/-!
# Verification of the indexed min-heap and Dijkstra engine

Shallow embedding of `src/heap_id.hpp` (`Heap_Id<Element>`) and
`src/graph.cpp` (`Graph::print_dijkstra`).

Modelling conventions:
* C++ `unsigned int` arithmetic is `ℕ` with an explicit `% 2^32` where the
  source can wrap (`capacity - 1`, `nb_elem - 1`, `2*i+1`, `2*i+2`).
* An element pointer (`Element *`) is a natural number indexing an external
  store; each heap operation receives the current key function
  `key : ℕ → α` (the C++ heap stores raw pointers, so externally mutating
  an element changes the key the heap sees on its next comparison).
* A failed `assert` halts the program: operations return `Option`, `none`
  meaning the run stops (assert failure, or an out-of-bounds raw read,
  which is undefined behavior in C++ and is modelled as failure).
* `new Node[capacity]` value-initializes the pairs to `(nullptr, 0)`,
  modelled as `(0, 0)`; `new unsigned int[capacity]` leaves `id_to_pos`
  uninitialized, modelled as `0` — no run settled below reads one of these
  entries before it has been written.
* Keys live in an arbitrary linear order `α` (the C++ `Element` only needs
  `<` and `<=`); concrete runs instantiate `α := ℚ`, which models the
  `float` distances of `graph.cpp` exactly on the rational inputs used.
-/

-- The arithmetic of `ℚ` is used to model the exact values of the C++
-- `float`/`double` computations; the rational operations are
-- `@[irreducible]` in the library, which would block kernel evaluation of
-- the concrete runs below, so they are restored to semireducible here.
set_option allowUnsafeReducibility true in
attribute [semireducible] Rat.add

set_option allowUnsafeReducibility true in
attribute [semireducible] Rat.sub

set_option allowUnsafeReducibility true in
attribute [semireducible] Rat.mul

set_option allowUnsafeReducibility true in
attribute [semireducible] Rat.inv

set_option allowUnsafeReducibility true in
attribute [semireducible] Rat.ofScientific

namespace HeapVerify

/-- The modulus of C++ `unsigned int` arithmetic. -/
def U32 : ℕ := 4294967296

/-- State of a `Heap_Id<Element>` object (src/heap_id.hpp lines 51-262). -/
structure Heap_Id where
  capacity : ℕ
  elements : Array (ℕ × ℕ)
  nb_elem : ℕ
  id_to_pos : Array ℕ
  id_free : Array ℕ
deriving DecidableEq

/-- The constructor `Heap_Id(unsigned int _capacity)` (lines 202-210):
empty heap, `id_free` filled with `0, 1, ..., capacity - 1`.  `id_free` is
never written again by any operation. -/
def mkHeap (capacity : ℕ) : Heap_Id where
  capacity := capacity
  elements := Array.mkArray capacity (0, 0)
  nb_elem := 0
  id_to_pos := Array.mkArray capacity 0
  id_free := Array.range capacity

/-- A failed `assert` halts execution: modelled as `none`. -/
def assertB (b : Bool) : Option Unit := if b then some () else none

/-- `ASSERT_IN_RANGE(value, min, max)` (lines 23-27): two asserts in
sequence. -/
def ASSERT_IN_RANGE (value mn mx : ℕ) : Option Unit := do
  assertB (decide (mn ≤ value))
  assertB (decide (value ≤ mx))

/-- Truncation of a rational toward zero into `ℕ`, as the C++
`double → unsigned int` conversion does on nonnegative values (for
negative values the C++ conversion is undefined behavior; it never
happens here since `(i-1)*0.5 ≥ 0` for unsigned `i ≥ 1`). -/
def ratTrunc (q : ℚ) : ℕ := (q.num / (q.den : ℤ)).toNat

namespace Heap_Id

variable {α : Type} [LinearOrder α]

/-- `capacity - 1` as computed by C++ `unsigned int` arithmetic in
`ASSERT_IN_RANGE(_, 0, capacity - 1)` (wraps to `2^32 - 1` when
`capacity = 0`). -/
def capM1 (h : Heap_Id) : ℕ := (h.capacity + (U32 - 1)) % U32

/-- The pointer (`first` field) stored at position `pos`. -/
def ptrAt (h : Heap_Id) (pos : ℕ) : ℕ := (h.elements.getD pos (0, 0)).1

/-- The id (`second` field) stored at position `pos`. -/
def idAt (h : Heap_Id) (pos : ℕ) : ℕ := (h.elements.getD pos (0, 0)).2

/-- The key currently seen by the heap at position `pos`. -/
def keyAt (key : ℕ → α) (h : Heap_Id) (pos : ℕ) : α := key (h.ptrAt pos)

/-- `Heap_Id::lt` (lines 88-92): strict key comparison of two positions. -/
def lt (key : ℕ → α) (h : Heap_Id) (pos_1 pos_2 : ℕ) : Option Bool := do
  ASSERT_IN_RANGE pos_1 0 h.capM1
  ASSERT_IN_RANGE pos_2 0 h.capM1
  pure (decide (h.keyAt key pos_1 < h.keyAt key pos_2))

/-- `Heap_Id::le` (lines 100-104): non-strict key comparison. -/
def le (key : ℕ → α) (h : Heap_Id) (pos_1 pos_2 : ℕ) : Option Bool := do
  ASSERT_IN_RANGE pos_1 0 h.capM1
  ASSERT_IN_RANGE pos_2 0 h.capM1
  pure (decide (h.keyAt key pos_1 ≤ h.keyAt key pos_2))

/-- `get_pos_left_son` (lines 114-118): `2*i + 1` in `unsigned int`
arithmetic. -/
def get_pos_left_son (h : Heap_Id) (i : ℕ) : Option ℕ := do
  ASSERT_IN_RANGE i 0 h.capM1
  pure ((2 * i + 1) % U32)

/-- `get_pos_right_son` (lines 128-132): `2*i + 2` in `unsigned int`
arithmetic. -/
def get_pos_right_son (h : Heap_Id) (i : ℕ) : Option ℕ := do
  ASSERT_IN_RANGE i 0 h.capM1
  pure ((2 * i + 2) % U32)

/-- `get_pos_father` (lines 142-152).  The C++ computes
`(i - 1) * 0.5` in `double` and converts back to `unsigned int`
(truncation toward zero).  For every `unsigned int` value the conversion
of `i - 1` to `double` and the multiplication by `0.5` are exact, so the
`double` value is the real number `(i - 1) / 2` and the conversion back is
its floor; the embedding computes that real number in `ℚ`. -/
def get_pos_father (h : Heap_Id) (i : ℕ) : Option ℕ := do
  ASSERT_IN_RANGE i 0 h.capM1
  let pos_father : ℕ := if i = 0 then 0 else ratTrunc (((i : ℚ) - 1) * (0.5 : ℚ))
  ASSERT_IN_RANGE pos_father 0 h.capM1
  pure pos_father

/-- `Heap_Id::swap` (lines 161-170).  The two `id_to_pos` writes are
sequential: when both nodes carry the same id, the second write
(`id_to_pos[elements[pos_b].second] = temp_pos_a`) wins. -/
def swap (h : Heap_Id) (pos_a pos_b : ℕ) : Option Heap_Id := do
  ASSERT_IN_RANGE pos_a 0 h.capM1
  ASSERT_IN_RANGE pos_b 0 h.capM1
  let ea := h.elements.getD pos_a (0, 0)
  let eb := h.elements.getD pos_b (0, 0)
  pure { h with
    id_to_pos := (h.id_to_pos.setD ea.2 pos_b).setD eb.2 pos_a,
    elements := (h.elements.setD pos_a eb).setD pos_b ea }

/-- `Heap_Id::is_valid` (lines 269-284).  The body begins with
`return true`, so the function returns `true` on every state and every
`assert(is_valid())` in the other operations always passes; the checking
loop after the `return` (lines 271-282) is dead code (see
`is_validLoop`). -/
def is_valid (_key : ℕ → α) (_h : Heap_Id) : Bool := true

/-- The dead checking loop of `is_valid` (lines 271-282): what the
function would compute had the loop been reachable — scan positions
`i < nb_elem` and fail whenever a present son's key is below its
father's. -/
def is_validLoop (key : ℕ → α) (h : Heap_Id) : Bool :=
  (List.range h.nb_elem).all fun i =>
    (!(decide ((2 * i + 2) % U32 < h.nb_elem))
        || decide (h.keyAt key i ≤ h.keyAt key ((2 * i + 2) % U32)))
    && (!(decide ((2 * i + 1) % U32 < h.nb_elem))
        || decide (h.keyAt key i ≤ h.keyAt key ((2 * i + 1) % U32)))

/-- The while-loop of `Heap_Id::raise` (lines 326-332), with explicit
fuel (the loop variable strictly decreases, so fuel `pos + 1` is always
enough, see `raise`).  The C++ condition `pos_father >= 0` is vacuously
true for `unsigned int` and is dropped. -/
def raiseLoop (key : ℕ → α) : ℕ → Heap_Id → ℕ → Option Heap_Id
  | 0, _, _ => none
  | fuel + 1, h, pos => do
    let pos_father ← h.get_pos_father pos
    let b ← h.lt key pos pos_father
    if b then do
      let h1 ← h.swap pos pos_father
      raiseLoop key fuel h1 pos_father
    else
      pure h

/-- `Heap_Id::raise` (lines 323-334).  The trailing `assert(is_valid())`
always passes and is omitted (see `is_valid`). -/
def raise (key : ℕ → α) (h : Heap_Id) (pos : ℕ) : Option Heap_Id := do
  ASSERT_IN_RANGE pos 0 h.capM1
  raiseLoop key (pos + 1) h pos

/-- One short-circuited conjunct `c < nb_elem && lt(c, pos)` of the loop
condition of `lower`: `lt` (and its asserts) is evaluated only when
`c < nb_elem`. -/
def childLt (key : ℕ → α) (h : Heap_Id) (c pos : ℕ) : Option Bool :=
  if c < h.nb_elem then h.lt key c pos else pure false

/-- The while-loop of `Heap_Id::lower` (lines 292-305), with explicit
fuel (each iteration moves `pos` to a strictly larger position below
`nb_elem`, so fuel `nb_elem + 1` is always enough, see `lower`). -/
def lowerLoop (key : ℕ → α) : ℕ → Heap_Id → ℕ → Option Heap_Id
  | 0, _, _ => none
  | fuel + 1, h, pos => do
    let pos_left_son ← h.get_pos_left_son pos
    let pos_right_son ← h.get_pos_right_son pos
    let bl ← h.childLt key pos_left_son pos
    let cond ← if bl then pure true else h.childLt key pos_right_son pos
    if cond then do
      let br ← if pos_right_son < h.nb_elem then
                 h.lt key pos_right_son pos_left_son
               else pure false
      let pos_to_swap_with := if br then pos_right_son else pos_left_son
      let h1 ← h.swap pos pos_to_swap_with
      lowerLoop key fuel h1 pos_to_swap_with
    else
      pure h

/-- `Heap_Id::lower` (lines 286-307).  The trailing `assert(is_valid())`
always passes and is omitted. -/
def lower (key : ℕ → α) (h : Heap_Id) (pos : ℕ) : Option Heap_Id := do
  ASSERT_IN_RANGE pos 0 h.capM1
  lowerLoop key (h.nb_elem + 1) h pos

/-- `Heap_Id::push` (lines 309-321): draw `id_free[nb_elem]` as id, place
the element at the end, record `id_to_pos`, grow, sift up.  Returns the
id together with the new state.  The leaked `new std::pair` allocation is
immaterial (the pair is immediately copied into `elements`).  The
`assert(is_valid())` calls always pass and are omitted. -/
def push (key : ℕ → α) (h : Heap_Id) (v : ℕ) : Option (ℕ × Heap_Id) := do
  assertB (decide (h.nb_elem < h.capacity))
  let n : ℕ × ℕ := (v, h.id_free.getD h.nb_elem 0)
  let h1 : Heap_Id := { h with
    elements := h.elements.setD h.nb_elem n,
    id_to_pos := h.id_to_pos.setD n.2 h.nb_elem,
    nb_elem := h.nb_elem + 1 }
  let h2 ← h1.raise key (h1.nb_elem - 1)
  pure (n.2, h2)

/-- `Heap_Id::pop` (lines 336-347): swap root and last, read the last
node, shrink, sift the root down; returns the popped element pointer.
`nb_elem - 1` is `unsigned int` arithmetic: on an empty heap it is
`2^32 - 1` and the range assert inside `swap` fails whenever
`1 ≤ capacity < 2^32`.  (A `capacity = 0` heap would instead read out of
bounds — undefined behavior not reached by any settled run.)  The
`assert(is_valid())` calls always pass and are omitted. -/
def pop (key : ℕ → α) (h : Heap_Id) : Option (ℕ × Heap_Id) := do
  let last := (h.nb_elem + (U32 - 1)) % U32
  let h1 ← h.swap 0 last
  let popped_node := h1.elements.getD ((h1.nb_elem + (U32 - 1)) % U32) (0, 0)
  let h2 : Heap_Id := { h1 with nb_elem := h1.nb_elem - 1 }
  let h3 ← h2.lower key 0
  pure (popped_node.1, h3)

/-- `Heap_Id::is_empty` (line 231). -/
def is_empty (h : Heap_Id) : Bool := h.nb_elem == 0

/-- `Heap_Id::reposition` (lines 349-353): `raise(id_to_pos[id]);
lower(id_to_pos[id]);` — the second `id_to_pos[id]` read happens after
`raise` may have moved nodes.  The raw reads are unchecked in C++; an
out-of-range `id` is an out-of-bounds read (undefined behavior), modelled
as failure. -/
def reposition (key : ℕ → α) (h : Heap_Id) (i : ℕ) : Option Heap_Id := do
  let p1 ← h.id_to_pos.get? i
  let h1 ← h.raise key p1
  let p2 ← h1.id_to_pos.get? i
  h1.lower key p2

end Heap_Id

/-- Pure form of the parent index: what `get_pos_father` computes
(`0` for the root, `⌊(i-1)/2⌋` otherwise — see `get_pos_father_eq`). -/
def posFather (i : ℕ) : ℕ := if i = 0 then 0 else (i - 1) / 2

/-- `ratTrunc` computes the natural-number floor (they agree even on
negative rationals, where both clamp to `0`, though only nonnegative
inputs occur). -/
lemma ratTrunc_eq_floor (q : ℚ) : ratTrunc q = ⌊q⌋₊ := by
  unfold ratTrunc
  rw [← Rat.floor_def, Int.floor_toNat]

/-- The rational (exact `double`) computation `n * 0.5` truncates to the
natural-number half. -/
lemma floor_half (n : ℕ) : ⌊(n : ℚ) * (0.5 : ℚ)⌋₊ = n / 2 := by
  have h5 : (0.5 : ℚ) = (1 : ℚ) / 2 := by norm_num
  rw [h5, mul_one_div, ← Nat.cast_ofNat (n := 2), Nat.floor_div_nat]
  simp

/-- The float expression inside `get_pos_father` equals `⌊(i-1)/2⌋` for
every position `i ≥ 1`. -/
lemma float_father_eq {i : ℕ} (hi : i ≠ 0) :
    ratTrunc (((i : ℚ) - 1) * (0.5 : ℚ)) = (i - 1) / 2 := by
  have h1 : (1 : ℕ) ≤ i := Nat.one_le_iff_ne_zero.mpr hi
  have hc : ((i : ℚ) - 1) = ((i - 1 : ℕ) : ℚ) := by
    push_cast [h1]; ring
  rw [ratTrunc_eq_floor, hc, floor_half]

/-- `capacity - 1` in unsigned arithmetic is the exact `capacity - 1`
whenever `1 ≤ capacity < 2^32`. -/
lemma capM1_eq {h : Heap_Id} (h1 : 1 ≤ h.capacity) (h2 : h.capacity < U32) :
    h.capM1 = h.capacity - 1 := by
  unfold Heap_Id.capM1 U32
  unfold U32 at h2
  omega

/-- `get_pos_father` succeeds on a legal position and returns the pure
parent index `posFather`. -/
lemma get_pos_father_eq {h : Heap_Id} {i : ℕ} (hle : i ≤ h.capM1) :
    h.get_pos_father i = some (posFather i) := by
  unfold Heap_Id.get_pos_father ASSERT_IN_RANGE assertB posFather
  rcases Nat.eq_zero_or_pos i with hi | hi
  · subst hi; simp
  · have hne : i ≠ 0 := Nat.pos_iff_ne_zero.mp hi
    have hfle : (i - 1) / 2 ≤ h.capM1 :=
      le_trans (le_trans (Nat.div_le_self _ 2) (Nat.sub_le i 1)) hle
    simp [hne, float_father_eq hne, hle, hfle]

/-- `get_pos_left_son` succeeds on a legal position. -/
lemma get_pos_left_son_eq {h : Heap_Id} {i : ℕ} (hle : i ≤ h.capM1) :
    h.get_pos_left_son i = some ((2 * i + 1) % U32) := by
  unfold Heap_Id.get_pos_left_son ASSERT_IN_RANGE assertB
  simp [hle]

/-- `get_pos_right_son` succeeds on a legal position. -/
lemma get_pos_right_son_eq {h : Heap_Id} {i : ℕ} (hle : i ≤ h.capM1) :
    h.get_pos_right_son i = some ((2 * i + 2) % U32) := by
  unfold Heap_Id.get_pos_right_son ASSERT_IN_RANGE assertB
  simp [hle]

/-- C9: for every legal position `i` (one accepted by the range asserts)
whose child indices do not overflow `unsigned int` (`2*i + 2 < 2^32`),
the left child position is `2i+1`, the right child position is `2i+2`,
and the parent position computed by `get_pos_father` — although obtained
as `(i-1)*0.5` in floating point — equals `⌊(i-1)/2⌋` for `i > 0` and
equals `0` for the root. -/
theorem claim_C9_child_parent_arithmetic (h : Heap_Id) (i : ℕ)
    (hlegal : i ≤ h.capM1) (hnowrap : 2 * i + 2 < U32) :
    h.get_pos_left_son i = some (2 * i + 1) ∧
    h.get_pos_right_son i = some (2 * i + 2) ∧
    h.get_pos_father i = some (posFather i) ∧
    posFather 0 = 0 ∧ (0 < i → posFather i = (i - 1) / 2) := by
  refine ⟨?_, ?_, get_pos_father_eq hlegal, rfl, fun hi => ?_⟩
  · rw [get_pos_left_son_eq hlegal, Nat.mod_eq_of_lt (by omega)]
  · rw [get_pos_right_son_eq hlegal, Nat.mod_eq_of_lt hnowrap]
  · unfold posFather
    simp [Nat.pos_iff_ne_zero.mp hi]

/-- C9 witness: the legal position `5` of a capacity-7 heap. -/
theorem claim_C9_child_parent_arithmetic_witness :
    (mkHeap 7).get_pos_left_son 5 = some 11 ∧
    (mkHeap 7).get_pos_right_son 5 = some 12 ∧
    (mkHeap 7).get_pos_father 5 = some (posFather 5) ∧
    posFather 0 = 0 ∧ (0 < 5 → posFather 5 = (5 - 1) / 2) :=
  claim_C9_child_parent_arithmetic (mkHeap 7) 5 (by decide) (by decide)

/-- A concrete two-element heap state violating the min-heap order:
position 0 holds the key-5 element, its left child position 1 the key-3
element. -/
def badHeap : Heap_Id where
  capacity := 2
  elements := #[(0, 0), (1, 1)]
  nb_elem := 2
  id_to_pos := #[0, 1]
  id_free := #[0, 1]

/-- Keys of `badHeap`: pointer 0 has key 5, pointer 1 has key 3. -/
def badKey : ℕ → ℚ := fun p => ([5, 3] : List ℚ).getD p 0

/-- C10: `is_valid` returns `true` on every heap state — including
`badHeap`, whose root key 5 exceeds its left child's key 3 (so the dead
checking loop, had it been reachable, would have returned `false`) —
hence the `assert(is_valid())` calls in `push`, `pop`, `lower` and
`raise` can never detect a violated heap invariant. -/
theorem claim_C10_is_valid_dead_code :
    (∀ (α : Type) (_inst : LinearOrder α) (key : ℕ → α) (h : Heap_Id),
        h.is_valid key = true) ∧
    badHeap.keyAt badKey 1 < badHeap.keyAt badKey 0 ∧
    badHeap.is_validLoop badKey = false ∧
    badHeap.is_valid badKey = true := by
  refine ⟨fun α inst key h => rfl, ?_, ?_, rfl⟩
  · show (3 : ℚ) < 5; norm_num
  · decide

/-! ## C7: which contract violations actually fail an assertion -/

/-- Keys for the C7 scenario: pointer 0 has key 1, pointer 1 has key 2. -/
def keyC7 : ℕ → ℚ := fun p => ([1, 2] : List ℚ).getD p 0

/-- The heap state reached by `push(ptr 0); push(ptr 1); pop()` on a
fresh capacity-2 heap: the key-1 element (pointer 0, handle 0) was popped;
only `(ptr 1, id 1)` is live, the dead slot 1 still holds the popped
node. -/
def c7AfterPop : Option (ℕ × Heap_Id) := do
  let (_, h1) ← (mkHeap 2).push keyC7 0
  let (_, h2) ← h1.push keyC7 1
  h2.pop keyC7

/-- The same state written out. -/
def c7Popped : Heap_Id where
  capacity := 2
  elements := #[(1, 1), (0, 0)]
  nb_elem := 1
  id_to_pos := #[1, 0]
  id_free := #[0, 1]

/-- C7 counterexample: `reposition` with handle 0 — which does **not**
name a currently queued element, since the element it named was just
popped — does not halt via a failed assertion: it returns normally
(`some`), and it corrupts the state, swapping the popped element back
into the live region (the live root changes from pointer 1 to the popped
pointer 0).  This refutes the claim that all three listed contract
violations fail fast. -/
theorem claim_C7_counterexample :
    c7AfterPop = some (0, c7Popped) ∧
    c7Popped.reposition keyC7 0 =
      some { c7Popped with elements := #[(0, 0), (1, 1)], id_to_pos := #[0, 1] } ∧
    c7Popped.ptrAt 0 = 1 ∧
    ({ c7Popped with elements := #[(0, 0), (1, 1)], id_to_pos := #[0, 1] } :
        Heap_Id).ptrAt 0 = 0 := by
  refine ⟨by decide, by decide, rfl, rfl⟩

/-- C7 amended: pushing into a full heap and popping an empty heap (of
capacity in `[1, 2^32)`) do halt via a failed assertion — `push` checks
`nb_elem < capacity` directly, and `pop`'s unsigned `nb_elem - 1 =
2^32 - 1` fails the range assert inside `swap` — but `reposition` with a
handle that no longer names a queued element need not fail any
assertion: with a stale handle of a popped element it can return
normally and corrupt the heap, as the counterexample above shows. -/
theorem claim_C7_amended :
    (∀ (key : ℕ → ℚ) (h : Heap_Id) (v : ℕ),
        h.capacity ≤ h.nb_elem → h.push key v = none) ∧
    (∀ (key : ℕ → ℚ) (h : Heap_Id),
        1 ≤ h.capacity → h.capacity < U32 → h.nb_elem = 0 →
        h.pop key = none) := by
  constructor
  · intro key h v hfull
    unfold Heap_Id.push assertB
    simp [Nat.not_lt.mpr hfull]
  · intro key h hc1 hc2 hnb
    unfold Heap_Id.pop Heap_Id.swap ASSERT_IN_RANGE assertB
    have hm : (h.nb_elem + (U32 - 1)) % U32 = U32 - 1 := by
      rw [hnb]; unfold U32; omega
    have hcap : h.capM1 = h.capacity - 1 := capM1_eq hc1 hc2
    have hgt : ¬ ((h.nb_elem + (U32 - 1)) % U32 ≤ h.capM1) := by
      rw [hm, hcap]; unfold U32; unfold U32 at hc2; omega
    simp [hgt]

/-- C7 amended, witness: a full capacity-0 heap rejects `push`; an empty
capacity-3 heap rejects `pop`. -/
theorem claim_C7_amended_witness :
    (mkHeap 0).push keyC7 0 = none ∧ (mkHeap 3).pop keyC7 = none :=
  ⟨claim_C7_amended.1 keyC7 (mkHeap 0) 0 (by decide),
   claim_C7_amended.2 keyC7 (mkHeap 3) (by decide) (by decide) rfl⟩

/-! ## C3: handle reuse while the named element is live -/

/-- Keys for the C3 scenario: pointers 0, 1, 2 have keys 1, 2, 3. -/
def keyC3 : ℕ → ℚ := fun p => ([1, 2, 3] : List ℚ).getD p 0

/-- C3 counterexample: on a fresh capacity-3 heap, `push(ptr 0)` returns
handle 0 and `push(ptr 1)` returns handle 1; `pop` removes pointer 0;
the next `push(ptr 2)` draws `id_free[nb_elem] = id_free[1]` and returns
handle 1 **again**, even though the element `(ptr 1, id 1)` that handle 1
named is still in the heap (live position 0 of the final state).  From
then on `id_to_pos[1] = 1` resolves handle 1 to pointer 2, no longer to
pointer 1.  This refutes both halves of the claim. -/
theorem claim_C3_counterexample :
    (do
      let (i0, h1) ← (mkHeap 3).push keyC3 0
      let (i1, h2) ← h1.push keyC3 1
      let (p, h3) ← h2.pop keyC3
      let (i2, h4) ← h3.push keyC3 2
      pure (i0, i1, p, i2, h4)) =
      some (0, 1, 0, 1,
        (⟨3, #[(1, 1), (2, 1), (0, 0)], 2, #[1, 1, 0], #[0, 1, 2]⟩ : Heap_Id)) ∧
    (⟨3, #[(1, 1), (2, 1), (0, 0)], 2, #[1, 1, 0], #[0, 1, 2]⟩ :
        Heap_Id).idAt 0 = 1 ∧
    (⟨3, #[(1, 1), (2, 1), (0, 0)], 2, #[1, 1, 0], #[0, 1, 2]⟩ :
        Heap_Id).ptrAt 0 = 1 ∧
    (⟨3, #[(1, 1), (2, 1), (0, 0)], 2, #[1, 1, 0], #[0, 1, 2]⟩ :
        Heap_Id).ptrAt 1 = 2 := by
  refine ⟨by decide, rfl, rfl, rfl⟩

/-! ## The Dijkstra engine of src/graph.cpp -/

/-- `Vertex_Distance` (graph.cpp lines 20-77): reachable vertex number,
best distance found so far, and the vertex to come from (`from`, renamed
`vd_from` since `from` is a Lean keyword).  `operator<`/`operator<=`
compare by `distance` only.  Distances are modelled in `ℚ`, which is
exact for the `float` arithmetic on the rational inputs used below. -/
structure Vertex_Distance where
  i : ℕ
  distance : ℚ
  vd_from : ℕ
deriving DecidableEq

/-- `id_undefined` (graph.cpp line 80): the vertex is not reached yet. -/
def id_undefined : ℤ := -1

/-- `id_treated` (graph.cpp line 83): the vertex was finalized. -/
def id_treated : ℤ := -2

/-- The adjacency structure: for each vertex the ordered list of
outgoing edges `(target, weight)` — `vertices[v].second` of graph.hpp as
read by graph.cpp lines 112-113. -/
abbrev GraphAdj := Array (List (ℕ × ℚ))

/-- The mutable engine state of `print_dijkstra`: the heap, the
`vertices_ids` array (`int`: `id_undefined`, `id_treated` or a handle)
and the `vertices_dist` array.  `new Vertex_Distance[n]` leaves every
entry default-constructed with uninitialized members, modelled as
`none`. -/
structure DState where
  heap : Heap_Id
  vertices_ids : Array ℤ
  vertices_dist : Array (Option Vertex_Distance)
deriving DecidableEq

/-- The key function the heap sees: element pointer `p` is the address
of `vertices_dist[p]`, compared through the `distance` field.  (The `0`
default for an unwritten entry models a read of uninitialized memory; no
settled run performs one.) -/
def dKey (dist : Array (Option Vertex_Distance)) : ℕ → ℚ :=
  fun p => ((dist.getD p none).map Vertex_Distance.distance).getD 0

/-- One edge relaxation (graph.cpp lines 113-123).  `Except`'s error
carries the state at the point of a crash — an assert failure or an
out-of-bounds access inside the heap, with the in-place
`vertices_dist` writes of lines 115-116 / 120-121 already applied.
Line 122 converts the `int` handle to the `unsigned int` parameter of
`reposition`, i.e. reduces it modulo `2^32`: a treated vertex passes
`4294967294`, an out-of-bounds `id_to_pos` index. -/
def relaxEdge (st : DState) (vdi : ℕ) (vddist : ℚ) (e : ℕ × ℚ) :
    Except DState DState :=
  if st.vertices_ids.getD e.1 0 = id_undefined then
    let dist1 := st.vertices_dist.setD e.1 (some ⟨e.1, vddist + e.2, vdi⟩)
    match st.heap.push (dKey dist1) e.1 with
    | none => .error { st with vertices_dist := dist1 }
    | some (idNew, h1) =>
        .ok { heap := h1,
              vertices_ids := st.vertices_ids.setD e.1 ((idNew : ℕ) : ℤ),
              vertices_dist := dist1 }
  else
    match st.vertices_dist.getD e.1 none with
    | none => .error st
    | some vdt =>
      if vddist + e.2 < vdt.distance then
        let dist1 := st.vertices_dist.setD e.1
          (some { vdt with distance := vddist + e.2, vd_from := vdi })
        let st1 : DState := { st with vertices_dist := dist1 }
        let uid : ℕ := ((st.vertices_ids.getD e.1 0) % (U32 : ℤ)).toNat
        match st1.heap.reposition (dKey dist1) uid with
        | none => .error st1
        | some h1 => .ok { st1 with heap := h1 }
      else .ok st

/-- The inner for-loop over the popped vertex's outgoing edges
(graph.cpp lines 112-124). -/
def relaxEdges (vdi : ℕ) (vddist : ℚ) :
    List (ℕ × ℚ) → DState → Except DState DState
  | [], st => .ok st
  | e :: es, st =>
    match relaxEdge st vdi vddist e with
    | .error st1 => .error st1
    | .ok st1 => relaxEdges vdi vddist es st1

/-- Outcome of running the algorithm while-loop for a bounded number of
iterations. -/
inductive DOut where
  | ok (st : DState)
  | crash (st : DState)
  | fuelOut (st : DState)
deriving DecidableEq

/-- The while-loop of graph.cpp lines 108-126, with explicit fuel (one
unit per pop; every vertex is pushed at most once since `push` requires
`vertices_ids = id_undefined`, and each iteration pops once, so
`nbr_vertices + 1` fuel always reaches the empty-heap exit unless the
run crashes first). -/
def dijkstraLoop (g : GraphAdj) : ℕ → DState → DOut
  | 0, st => .fuelOut st
  | fuel + 1, st =>
    if st.heap.is_empty then .ok st
    else
      match st.heap.pop (dKey st.vertices_dist) with
      | none => .crash st
      | some (ptr, h1) =>
        let st1 : DState := { st with heap := h1 }
        match st1.vertices_dist.getD ptr none with
        | none => .crash st1
        | some vd =>
          match relaxEdges vd.i vd.distance (g.getD vd.i []) st1 with
          | .error st2 => .crash st2
          | .ok st2 =>
            dijkstraLoop g fuel
              { st2 with vertices_ids := st2.vertices_ids.setD vd.i id_treated }

/-- Initialization (graph.cpp lines 90-104): fresh heap of capacity
`nbr_vertices`, all ids `id_undefined`, all `Vertex_Distance` entries
uninitialized except the source `(from, 0, from)`, which is pushed. -/
def dijkstraInit (nbr_vertices vfrom : ℕ) : Option DState :=
  let st0 : DState := {
    heap := mkHeap nbr_vertices,
    vertices_ids := Array.mkArray nbr_vertices id_undefined,
    vertices_dist :=
      (Array.mkArray nbr_vertices none).setD vfrom (some ⟨vfrom, 0, vfrom⟩) }
  match st0.heap.push (dKey st0.vertices_dist) vfrom with
  | none => none
  | some (idSrc, h1) =>
      some { st0 with
             heap := h1,
             vertices_ids := st0.vertices_ids.setD vfrom ((idSrc : ℕ) : ℤ) }

/-- The algorithm phase cut off after `fuel` pop-iterations — used to
exhibit intermediate states of the while-loop (`fuelOut` carries the
state after exactly `fuel` completed iterations).  The initial push
cannot fail (`none` branch unreachable for `vfrom < nbr_vertices`). -/
def dijkstraPrefix (g : GraphAdj) (nbr_vertices vfrom fuel : ℕ) : DOut :=
  match dijkstraInit nbr_vertices vfrom with
  | none => .crash ⟨mkHeap nbr_vertices, #[], #[]⟩
  | some st1 => dijkstraLoop g fuel st1

/-- A line printed by the path phase (graph.cpp lines 128-136): either
`n<i> <distance>` for a hop, or the final literal line `n0`. -/
inductive PathLine where
  | node (i : ℕ) (distance : ℚ)
  | sentinel
deriving DecidableEq

/-- The path-printing loop (lines 129-135) followed by the `n0` sentinel
(line 136): walk `from` pointers backwards from the target, printing
`vertices_dist[i].i` and `.distance` at each hop.  Reading an unwritten
(uninitialized) entry is undefined behavior and a predecessor cycle
never terminates; both are modelled as `none`. -/
def printPathLoop (dist : Array (Option Vertex_Distance)) (vfrom : ℕ) :
    ℕ → ℕ → List PathLine → Option (List PathLine)
  | 0, _, _ => none
  | fuel + 1, i_current, acc =>
    if i_current = vfrom then some (acc ++ [PathLine.sentinel])
    else
      match dist.getD i_current none with
      | none => none
      | some vd =>
          printPathLoop dist vfrom fuel vd.vd_from
            (acc ++ [PathLine.node vd.i vd.distance])

/-- Result of a complete `print_dijkstra` call. -/
inductive RunRes where
  | ok (st : DState) (out : List PathLine)
  | crash (st : DState)
  | assertFail
  | fuelOut (st : DState)
deriving DecidableEq

/-- `Graph::print_dijkstra(from, to)` (graph.cpp lines 86-140): the two
range asserts, initialization, the algorithm while-loop, then the
path-printing phase. -/
def print_dijkstra (g : GraphAdj) (nbr_vertices vfrom vto : ℕ) : RunRes :=
  if vfrom < nbr_vertices ∧ vto < nbr_vertices then
    match dijkstraInit nbr_vertices vfrom with
    | none => .crash ⟨mkHeap nbr_vertices, #[], #[]⟩
    | some st1 =>
      match dijkstraLoop g (nbr_vertices + 1) st1 with
      | .fuelOut st => .fuelOut st
      | .crash st => .crash st
      | .ok st =>
        match printPathLoop st.vertices_dist vfrom (nbr_vertices + 1) vto [] with
        | none => .crash st
        | some lines => .ok st lines
  else .assertFail

/-- `vertices_ids[v]` in the carried state of an algorithm-phase
outcome. -/
def DOut.idsAt : DOut → ℕ → ℤ
  | .ok st, v | .crash st, v | .fuelOut st, v => st.vertices_ids.getD v 0

/-- `vertices_dist[v]` in the carried state of an algorithm-phase
outcome. -/
def DOut.distAt : DOut → ℕ → Option Vertex_Distance
  | .ok st, v | .crash st, v | .fuelOut st, v => st.vertices_dist.getD v none

/-- Whether the algorithm phase crashed. -/
def DOut.isCrash : DOut → Bool
  | .crash _ => true
  | _ => false

/-- Whether the bounded run stopped with fuel exhausted (the loop was
still going). -/
def DOut.isFuelOut : DOut → Bool
  | .fuelOut _ => true
  | _ => false

/-- Whether a complete run finished normally. -/
def RunRes.isOk : RunRes → Bool
  | .ok _ _ => true
  | _ => false

/-- Whether a complete run crashed (assert failure inside the heap, or
an out-of-bounds / uninitialized-memory access). -/
def RunRes.isCrash : RunRes → Bool
  | .crash _ => true
  | _ => false

/-- The printed lines of a completed run. -/
def RunRes.out : RunRes → Option (List PathLine)
  | .ok _ o => some o
  | _ => none

/-- `vertices_dist[v]` in the final state of a complete run. -/
def RunRes.distAt : RunRes → ℕ → Option Vertex_Distance
  | .ok st _, v => st.vertices_dist.getD v none
  | .crash st, v => st.vertices_dist.getD v none
  | .fuelOut st, v => st.vertices_dist.getD v none
  | .assertFail, _ => none

/-- The weight of the first edge from `u` to `v` in the adjacency
list. -/
def edgeTo (g : GraphAdj) (u v : ℕ) : Option ℚ :=
  ((g.getD u []).find? (fun e => e.1 == v)).map Prod.snd

/-- Total weight of a path `u :: vs` through consecutive edges of the
graph (`none` when an edge is missing). -/
def chainCost (g : GraphAdj) : ℕ → List ℕ → Option ℚ
  | _, [] => some 0
  | u, v :: rest =>
    match edgeTo g u v, chainCost g v rest with
    | some w, some c => some (w + c)
    | _, _ => none

/-! ## Concrete graphs -/

/-- The spec's reference graph: vertices `{0,1,2,3}`, edges `0→1(4)`,
`0→2(1)`, `2→1(1)`, `1→3(1)`, `2→3(5)`. -/
def graphExample : GraphAdj := #[[(1, 4), (2, 1)], [(3, 1)], [(1, 1), (3, 5)], []]

/-- A 5-vertex graph on which `print_dijkstra` terminates normally with
a wrong distance: edges `0→1(0)`, `0→3(0)`, `1→2(3)`, `1→4(1)`,
`3→2(2)`, `4→2(0)`.  The true shortest distance to vertex 2 is `1`
(path `0→1→4→2`), but a popped handle is re-drawn for a live vertex, a
later `reposition` therefore re-heapifies the wrong node, the popped
vertex 3 is resurrected into the live region and processed twice, and
the run finalizes vertex 2 at distance `2`. -/
def graphWrong : GraphAdj :=
  #[[(1, 0), (3, 0)], [(2, 3), (4, 1)], [], [(2, 2)], [(2, 0)]]

/-- A 6-vertex graph on which `print_dijkstra` relaxes an
already-finalized vertex: edges `0→2(0)`, `0→5(1)`, `2→3(0)`, `2→4(1)`,
`3→1(1)`, `3→5(0)`, `5→4(0)`.  Handle 1 is re-drawn for vertex 1 while
vertex 5 still holds it, so the decrease of vertex 5's key to `0` is
followed by a `reposition` of the wrong node; vertex 4 (key 1) is then
popped and finalized before vertex 5 (key 0), and when vertex 5 is
finally popped its edge `5→4(0)` improves the distance of the treated
vertex 4 — the code overwrites `vertices_dist[4]` and then calls
`reposition((unsigned)id_treated)`, an out-of-bounds read. -/
def graphTreated : GraphAdj :=
  #[[(2, 0), (5, 1)], [], [(3, 0), (4, 1)], [(1, 1), (5, 0)], [], [(4, 0)]]

/-- Two vertices, no edges: vertex 1 is unreachable from vertex 0. -/
def graphIsolated : GraphAdj := #[[], []]

/-! ## C1: Dijkstra correctness -/

/-- C1 counterexample: on `graphWrong` (non-negative weights, every
vertex reachable from the source 0) the run completes normally but
records distance `2` for vertex 2, although the path `0→1→4→2` has total
weight `1 < 2` — so `print_dijkstra` does not always compute the minimal
distance. -/
theorem claim_C1_counterexample :
    (print_dijkstra graphWrong 5 0 2).isOk = true ∧
    (print_dijkstra graphWrong 5 0 2).distAt 2 = some ⟨2, 2, 3⟩ ∧
    chainCost graphWrong 0 [1, 4, 2] = some 1 ∧
    (1 : ℚ) < 2 := by
  refine ⟨by decide, by decide, by decide, by norm_num⟩

/-- C1 amended: on the spec's example graph, run from source 0, the
final `vertices_dist` records exactly the distances `0:0, 1:2, 2:1, 3:3`
with predecessors `1←2`, `2←0`, `3←1` (the shortest path
`0 → 2 → 1 → 3`), and printing the path to 3 emits the hops
`n3 3`, `n1 2`, `n2 1` and the sentinel — the cumulative distances
`0, 1, 2, 3`.  (The universal claim fails, as the counterexample
above shows on the five-vertex graph.) -/
theorem claim_C1_amended_example_graph :
    (print_dijkstra graphExample 4 0 3).isOk = true ∧
    (print_dijkstra graphExample 4 0 3).distAt 0 = some ⟨0, 0, 0⟩ ∧
    (print_dijkstra graphExample 4 0 3).distAt 1 = some ⟨1, 2, 2⟩ ∧
    (print_dijkstra graphExample 4 0 3).distAt 2 = some ⟨2, 1, 0⟩ ∧
    (print_dijkstra graphExample 4 0 3).distAt 3 = some ⟨3, 3, 1⟩ ∧
    (print_dijkstra graphExample 4 0 3).out =
      some [PathLine.node 3 3, PathLine.node 1 2, PathLine.node 2 1,
            PathLine.sentinel] := by
  refine ⟨by decide, by decide, by decide, by decide, by decide, by decide⟩

/-! ## C4: unreachable target -/

/-- C4: requesting the path to the unreachable vertex 1 does not yield
any typed error value — the path loop reads the uninitialized
`vertices_dist[1]` entry (undefined behavior, modelled as a crash); the
out-of-range target case, by contrast, stops at the entry asserts. -/
theorem claim_C4_unreachable_crashes :
    (print_dijkstra graphIsolated 2 0 1).isCrash = true ∧
    print_dijkstra graphIsolated 2 0 2 = RunRes.assertFail := by
  exact ⟨by decide, by decide⟩

/-! ## C6: finalized vertices -/

/-- C6: on `graphTreated`, after 4 completed iterations vertex 4 is
finalized (`vertices_ids[4] = id_treated`) with recorded distance `1`;
the next iteration relaxes the edge `5→4(0)`, overwriting the finalized
vertex's entry with distance `0` and predecessor `5`, and then crashes
calling `reposition((unsigned)id_treated)` — refuting both the
immutability of finalized distances and the claim that the run is
well-behaved afterwards. -/
theorem claim_C6_finalized_vertex_relaxed :
    (dijkstraPrefix graphTreated 6 0 4).isFuelOut = true ∧
    (dijkstraPrefix graphTreated 6 0 4).idsAt 4 = id_treated ∧
    (dijkstraPrefix graphTreated 6 0 4).distAt 4 = some ⟨4, 1, 2⟩ ∧
    (dijkstraPrefix graphTreated 6 0 6).isCrash = true ∧
    (dijkstraPrefix graphTreated 6 0 6).idsAt 4 = id_treated ∧
    (dijkstraPrefix graphTreated 6 0 6).distAt 4 = some ⟨4, 0, 5⟩ := by
  refine ⟨by decide, by decide, by decide, by decide, by decide, by decide⟩

/-! ## C8: source equals target -/

/-- C8 counterexample: with source = target = 1 the code prints exactly
one line, but that line is the literal sentinel `n0` — it does not name
the source vertex 1 and carries no distance. -/
theorem claim_C8_counterexample :
    (print_dijkstra graphIsolated 2 1 1).out = some [PathLine.sentinel] ∧
    [PathLine.sentinel] ≠ [PathLine.node 1 0] := by
  exact ⟨by decide, by decide⟩

/-- C8 amended: when source and target coincide the printing loop body
never runs, so — for any `vertices_dist` contents — exactly one line is
emitted: the literal sentinel `n0` (which names the source only when the
source is vertex 0, and carries no distance). -/
theorem claim_C8_amended_single_sentinel :
    (∀ (dist : Array (Option Vertex_Distance)) (vfrom fuel : ℕ)
        (acc : List PathLine),
        printPathLoop dist vfrom (fuel + 1) vfrom acc =
          some (acc ++ [PathLine.sentinel])) ∧
    (print_dijkstra graphExample 4 2 2).out = some [PathLine.sentinel] := by
  constructor
  · intro dist vfrom fuel acc
    unfold printPathLoop
    simp
  · decide

/-! ## C2: the heap-order invariant under push / pop / reposition -/

/-- Key function reading an array store (pointer `p`'s key is
`store[p]`; the default `0` is never read in the runs below). -/
def kOf (s : Array ℚ) : ℕ → ℚ := fun p => s.getD p 0

/-- Initial key store for the C2 scenario: pointers `0..4` have keys
`10, 20, 30, 5, 3`. -/
def storeC2 : Array ℚ := #[10, 20, 30, 5, 3]

/-- The C2 store after the out-of-band mutation: the key of pointer 1
(the element pushed second, handle 1) is decreased from `20` to `1`. -/
def storeC2m : Array ℚ := #[10, 1, 30, 5, 3]

/-- The C2 op sequence: on a fresh capacity-5 heap, push pointers 0 and
1, pop (removes pointer 0, key 10), push pointers 2, 3, 4 — the push of
pointer 2 re-draws handle 1, which still names the live pointer 1 — then
mutate pointer 1's key to `1` and reposition its handle 1.  Returns the
handle drawn for pointer 1 and the final state. -/
def c2Run : Option (ℕ × Heap_Id) := do
  let (_, h1) ← (mkHeap 5).push (kOf storeC2) 0
  let (i1, h2) ← h1.push (kOf storeC2) 1
  let (_, h3) ← h2.pop (kOf storeC2)
  let (_, h4) ← h3.push (kOf storeC2) 2
  let (_, h5) ← h4.push (kOf storeC2) 3
  let (_, h6) ← h5.push (kOf storeC2) 4
  let h7 ← h6.reposition (kOf storeC2m) 1
  pure (i1, h7)

/-- C2 counterexample: every operation of `c2Run` is called within its
precondition (pushes below capacity, pop of a nonempty heap, reposition
of handle 1 right after the key of the still-queued element it named was
mutated), yet the final state violates the heap order: position 2 — the
right child `2*0+2` of the root — holds the key-1 element below the
key-3 root.  (`id_to_pos[1]` was hijacked by the colliding push of
pointer 2, so `reposition(1)` re-heapified the wrong node.) -/
theorem claim_C2_counterexample :
    c2Run.map Prod.fst = some 1 ∧
    c2Run.map (fun r => r.2.nb_elem) = some 4 ∧
    c2Run.map (fun r => r.2.elements.getD 2 (0, 0)) = some (1, 1) ∧
    c2Run.map (fun r =>
      decide (r.2.keyAt (kOf storeC2m) 0 ≤ r.2.keyAt (kOf storeC2m) 2)) =
      some false ∧
    2 * 0 + 2 = 2 := by
  refine ⟨by decide, by decide, by decide, by decide, rfl⟩

/-! ## Invariants of well-formed heap states -/

/-- Array access plumbing: reading the written cell. -/
lemma getD_setD_eq {β : Type} (a : Array β) (d v : β) {i : ℕ}
    (hi : i < a.size) : (a.setD i v).getD i d = v := by
  simp [Array.getD_eq_get?, Array.getElem?_setD_eq a hi]

/-- Array access plumbing: reading another cell. -/
lemma getD_setD_ne {β : Type} (a : Array β) (d v : β) {i j : ℕ}
    (hij : i ≠ j) : (a.setD i v).getD j d = a.getD j d := by
  unfold Array.setD
  split
  · next hlt =>
      rw [Array.getD_eq_get?, Array.getD_eq_get?,
        Array.getElem?_set_ne a ⟨i, hlt⟩ v hij]
  · rfl

/-- Array access plumbing: `getD` out of bounds. -/
lemma getD_of_size_le {β : Type} (a : Array β) (d : β) {i : ℕ}
    (hi : a.size ≤ i) : a.getD i d = d := by
  simp [Array.getD_eq_get?, Array.getElem?_len_le a hi]

/-- The pair `(element pointer, id)` sits at some live position. -/
def LivePair (h : Heap_Id) (pr : ℕ × ℕ) : Prop :=
  ∃ p, p < h.nb_elem ∧ h.elements.getD p (0, 0) = pr

/-- The element pointer sits at some live position. -/
def LivePtr (h : Heap_Id) (x : ℕ) : Prop :=
  ∃ p, p < h.nb_elem ∧ h.ptrAt p = x

/-- Distinct live positions hold distinct element pointers. -/
def PtrsInj (h : Heap_Id) : Prop :=
  ∀ p q, p < h.nb_elem → q < h.nb_elem → h.ptrAt p = h.ptrAt q → p = q

/-- The heap order, parent form: every live non-root position's key is
at least its parent's key. -/
def HeapOrdered {α : Type} [LinearOrder α] (key : ℕ → α) (h : Heap_Id) : Prop :=
  ∀ j, 0 < j → j < h.nb_elem → h.keyAt key (posFather j) ≤ h.keyAt key j

/-- The heap order, child form (as claim C2 states it): whenever a
child position `2i+1` or `2i+2` of position `i` holds an element, the
key at `i` is at most the key at the child. -/
def HeapChildOrdered {α : Type} [LinearOrder α] (key : ℕ → α) (h : Heap_Id) : Prop :=
  ∀ i j, (j = 2 * i + 1 ∨ j = 2 * i + 2) → j < h.nb_elem →
    h.keyAt key i ≤ h.keyAt key j

/-- Well-formedness of a heap state: all of it holds for every state
reachable from the constructor, except that `ids_inj` can be destroyed
by a push that re-draws a live handle. -/
structure WF (h : Heap_Id) : Prop where
  cap_lt : h.capacity < 2 ^ 31
  size_elements : h.elements.size = h.capacity
  size_id_to_pos : h.id_to_pos.size = h.capacity
  nb_le : h.nb_elem ≤ h.capacity
  ids_lt : ∀ p, p < h.nb_elem → h.idAt p < h.capacity
  ids_inj : ∀ p q, p < h.nb_elem → q < h.nb_elem → h.idAt p = h.idAt q → p = q
  id_pos : ∀ p, p < h.nb_elem → h.id_to_pos.getD (h.idAt p) 0 = p
  id_free_id : ∀ k, k < h.capacity → h.id_free.getD k 0 = k

/-- The parent index of a child. -/
lemma posFather_child {p j : ℕ} (hj : j = 2 * p + 1 ∨ j = 2 * p + 2) :
    posFather j = p := by
  have hj0 : j ≠ 0 := by omega
  unfold posFather
  rw [if_neg hj0]
  omega

/-- A non-root position's children are exactly the positions whose
parent it is. -/
lemma child_of_posFather {p j : ℕ} (hjp : posFather j = p) (hne : j ≠ p) :
    j = 2 * p + 1 ∨ j = 2 * p + 2 := by
  unfold posFather at hjp
  by_cases h0 : j = 0
  · subst h0; simp at hjp; omega
  · simp [h0] at hjp; omega

/-- The parent index is strictly below a non-root position. -/
lemma posFather_lt {j : ℕ} (hj : 0 < j) : posFather j < j := by
  unfold posFather
  have : j ≠ 0 := Nat.pos_iff_ne_zero.mp hj
  simp [this]; omega

/-- Parent and child forms of the heap order agree. -/
lemma heapOrdered_iff_child {α : Type} [LinearOrder α] (key : ℕ → α)
    (h : Heap_Id) : HeapOrdered key h ↔ HeapChildOrdered key h := by
  constructor
  · intro hp i j hj hjn
    have := hp j (by omega) hjn
    rwa [posFather_child hj] at this
  · intro hc j hj hjn
    have hch := child_of_posFather (p := posFather j) rfl (by
      have := posFather_lt hj; omega)
    exact hc (posFather j) j hch hjn

/-- In an ordered heap the root key is minimal among live positions. -/
lemma root_min {α : Type} [LinearOrder α] {key : ℕ → α} {h : Heap_Id}
    (hO : HeapOrdered key h) :
    ∀ j, j < h.nb_elem → h.keyAt key 0 ≤ h.keyAt key j := by
  intro j
  induction j using Nat.strong_induction_on with
  | _ j ih =>
    intro hj
    rcases Nat.eq_zero_or_pos j with rfl | hpos
    · exact le_refl _
    · have hf := posFather_lt hpos
      exact le_trans (ih (posFather j) hf (lt_trans hf hj)) (hO j hpos hj)

/-- The well-formed states accept positions below `nb_elem` in the
range asserts. -/
lemma le_capM1_of_lt {h : Heap_Id} (hWF : WF h) {p : ℕ}
    (hp : p < h.capacity) : p ≤ h.capM1 := by
  have h1 : 1 ≤ h.capacity := by omega
  have h2 : h.capacity < U32 := by
    have := hWF.cap_lt; unfold U32; omega
  rw [capM1_eq h1 h2]; omega

/-- Both asserts of `ASSERT_IN_RANGE` pass. -/
lemma ASSERT_IN_RANGE_pass {v mn mx : ℕ} (h1 : mn ≤ v) (h2 : v ≤ mx) :
    ASSERT_IN_RANGE v mn mx = some () := by
  simp [ASSERT_IN_RANGE, assertB, h1, h2]

/-- Complete description of a successful `swap` of two live positions
of a well-formed state: the two element pairs are exchanged, everything
else survives, and well-formedness (in particular the `id_to_pos`
consistency) is preserved. -/
lemma swap_spec {h : Heap_Id} (hWF : WF h) {p q : ℕ}
    (hp : p < h.nb_elem) (hq : q < h.nb_elem) :
    ∃ h', h.swap p q = some h' ∧
      h'.capacity = h.capacity ∧
      h'.nb_elem = h.nb_elem ∧
      h'.id_free = h.id_free ∧
      h'.elements.getD p (0, 0) = h.elements.getD q (0, 0) ∧
      h'.elements.getD q (0, 0) = h.elements.getD p (0, 0) ∧
      (∀ r, r ≠ p → r ≠ q →
        h'.elements.getD r (0, 0) = h.elements.getD r (0, 0)) ∧
      (∀ pr, LivePair h' pr ↔ LivePair h pr) ∧
      (PtrsInj h → PtrsInj h') ∧
      WF h' := by
  have hpc : p < h.capacity := lt_of_lt_of_le hp hWF.nb_le
  have hqc : q < h.capacity := lt_of_lt_of_le hq hWF.nb_le
  have hpe : p < h.elements.size := by rw [hWF.size_elements]; exact hpc
  have hqe : q < h.elements.size := by rw [hWF.size_elements]; exact hqc
  have hrun : h.swap p q = some
      { h with
        id_to_pos := (h.id_to_pos.setD (h.idAt p) q).setD (h.idAt q) p,
        elements := (h.elements.setD p (h.elements.getD q (0, 0))).setD q
          (h.elements.getD p (0, 0)) } := by
    simp [Heap_Id.swap,
      ASSERT_IN_RANGE_pass (Nat.zero_le _) (le_capM1_of_lt hWF hpc),
      ASSERT_IN_RANGE_pass (Nat.zero_le _) (le_capM1_of_lt hWF hqc),
      Heap_Id.idAt]
  set h' : Heap_Id :=
      { h with
        id_to_pos := (h.id_to_pos.setD (h.idAt p) q).setD (h.idAt q) p,
        elements := (h.elements.setD p (h.elements.getD q (0, 0))).setD q
          (h.elements.getD p (0, 0)) } with hh'
  have hEq : h'.elements.getD q (0, 0) = h.elements.getD p (0, 0) := by
    rw [hh']
    exact getD_setD_eq _ _ _ (by simpa using hqe)
  have hEp : h'.elements.getD p (0, 0) = h.elements.getD q (0, 0) := by
    rcases eq_or_ne p q with rfl | hpq
    · rw [hEq]
    · rw [hh']
      show ((h.elements.setD p _).setD q _).getD p (0, 0) = _
      rw [getD_setD_ne _ _ _ (Ne.symm hpq), getD_setD_eq _ _ _ hpe]
  have hEo : ∀ r, r ≠ p → r ≠ q →
      h'.elements.getD r (0, 0) = h.elements.getD r (0, 0) := by
    intro r hrp hrq
    rw [hh']
    show ((h.elements.setD p _).setD q _).getD r (0, 0) = _
    rw [getD_setD_ne _ _ _ (Ne.symm hrq), getD_setD_ne _ _ _ (Ne.symm hrp)]
  -- the permutation of positions induced by the swap
  have hid : ∀ r, h'.idAt r =
      h.idAt (if r = p then q else if r = q then p else r) := by
    intro r
    by_cases hrp : r = p
    · rw [hrp, if_pos rfl]
      show (h'.elements.getD p (0, 0)).2 = (h.elements.getD q (0, 0)).2
      rw [hEp]
    · by_cases hrq : r = q
      · have hqp : q ≠ p := fun e => hrp (hrq.trans e)
        rw [hrq, if_neg hqp, if_pos rfl]
        show (h'.elements.getD q (0, 0)).2 = (h.elements.getD p (0, 0)).2
        rw [hEq]
      · rw [if_neg hrp, if_neg hrq]
        show (h'.elements.getD r (0, 0)).2 = (h.elements.getD r (0, 0)).2
        rw [hEo r hrp hrq]
  have hσlt : ∀ r, r < h.nb_elem →
      (if r = p then q else if r = q then p else r) < h.nb_elem := by
    intro r hr; split_ifs <;> assumption
  have hptr : ∀ r, h'.ptrAt r =
      h.ptrAt (if r = p then q else if r = q then p else r) := by
    intro r
    by_cases hrp : r = p
    · rw [hrp, if_pos rfl]
      show (h'.elements.getD p (0, 0)).1 = (h.elements.getD q (0, 0)).1
      rw [hEp]
    · by_cases hrq : r = q
      · have hqp : q ≠ p := fun e => hrp (hrq.trans e)
        rw [hrq, if_neg hqp, if_pos rfl]
        show (h'.elements.getD q (0, 0)).1 = (h.elements.getD p (0, 0)).1
        rw [hEq]
      · rw [if_neg hrp, if_neg hrq]
        show (h'.elements.getD r (0, 0)).1 = (h.elements.getD r (0, 0)).1
        rw [hEo r hrp hrq]
  have hpairs : ∀ pr, LivePair h' pr ↔ LivePair h pr := by
    intro pr
    constructor
    · rintro ⟨r, hr, hrpr⟩
      replace hr : r < h.nb_elem := hr
      by_cases hrp : r = p
      · exact ⟨q, hq, by rw [← hEp, ← hrp]; exact hrpr⟩
      · by_cases hrq : r = q
        · exact ⟨p, hp, by rw [← hEq, ← hrq]; exact hrpr⟩
        · exact ⟨r, hr, by rw [← hEo r hrp hrq]; exact hrpr⟩
    · rintro ⟨r, hr, hrpr⟩
      by_cases hrp : r = p
      · exact ⟨q, hq, by rw [hEq, ← hrp]; exact hrpr⟩
      · by_cases hrq : r = q
        · exact ⟨p, hp, by rw [hEp, ← hrq]; exact hrpr⟩
        · exact ⟨r, hr, by rw [hEo r hrp hrq]; exact hrpr⟩
  have hptrs : PtrsInj h → PtrsInj h' := by
    intro hPI a b ha hb hab
    replace ha : a < h.nb_elem := ha
    replace hb : b < h.nb_elem := hb
    rw [hptr a, hptr b] at hab
    have := hPI _ _ (hσlt a ha) (hσlt b hb) hab
    split_ifs at this <;> omega
  refine ⟨h', hrun, rfl, rfl, rfl, hEp, hEq, hEo, hpairs, hptrs, ?_⟩
  constructor
  · exact hWF.cap_lt
  · show ((h.elements.setD _ _).setD _ _).size = h.capacity
    simp [hWF.size_elements]
  · show ((h.id_to_pos.setD _ _).setD _ _).size = h.capacity
    simp [hWF.size_id_to_pos]
  · exact hWF.nb_le
  · intro r hr
    rw [hid r]
    exact hWF.ids_lt _ (hσlt r hr)
  · intro a b ha hb hab
    rw [hid a, hid b] at hab
    have := hWF.ids_inj _ _ (hσlt a ha) (hσlt b hb) hab
    split_ifs at this <;> omega
  · intro r hr
    rw [hid r]
    have hidq : h.idAt q < h.id_to_pos.size := by
      rw [hWF.size_id_to_pos]; exact hWF.ids_lt q hq
    have hidp : h.idAt p < h.id_to_pos.size := by
      rw [hWF.size_id_to_pos]; exact hWF.ids_lt p hp
    by_cases hrp : r = p
    · rw [if_pos hrp]
      show ((h.id_to_pos.setD (h.idAt p) q).setD (h.idAt q) p).getD (h.idAt q) 0 = r
      rw [getD_setD_eq _ _ _ (by simpa using hidq)]
      exact hrp.symm
    · by_cases hrq : r = q
      · rw [if_neg hrp, if_pos hrq]
        have hpq : p ≠ q := fun e => hrp (hrq.trans e.symm)
        have hne : h.idAt q ≠ h.idAt p :=
          fun e => hpq (hWF.ids_inj q p hq hp e).symm
        show ((h.id_to_pos.setD (h.idAt p) q).setD (h.idAt q) p).getD (h.idAt p) 0 = r
        rw [getD_setD_ne _ _ _ hne, getD_setD_eq _ _ _ (by simpa using hidp)]
        exact hrq.symm
      · rw [if_neg hrp, if_neg hrq]
        have hne1 : h.idAt q ≠ h.idAt r :=
          fun e => hrq (hWF.ids_inj r q hr hq e.symm)
        have hne2 : h.idAt p ≠ h.idAt r :=
          fun e => hrp (hWF.ids_inj r p hr hp e.symm)
        show ((h.id_to_pos.setD (h.idAt p) q).setD (h.idAt q) p).getD (h.idAt r) 0 = r
        rw [getD_setD_ne _ _ _ hne1, getD_setD_ne _ _ _ hne2]
        exact hWF.id_pos r hr
  · exact hWF.id_free_id

/-- The parent index never exceeds the position. -/
lemma posFather_le (i : ℕ) : posFather i ≤ i := by
  unfold posFather
  split
  · omega
  · exact le_trans (Nat.div_le_self _ 2) (Nat.sub_le i 1)

/-- `lt` succeeds on legal positions and decides the strict key
comparison. -/
lemma lt_spec {α : Type} [LinearOrder α] (key : ℕ → α) {h : Heap_Id}
    (hWF : WF h) {p q : ℕ} (hp : p < h.capacity) (hq : q < h.capacity) :
    h.lt key p q = some (decide (h.keyAt key p < h.keyAt key q)) := by
  simp [Heap_Id.lt,
    ASSERT_IN_RANGE_pass (Nat.zero_le _) (le_capM1_of_lt hWF hp),
    ASSERT_IN_RANGE_pass (Nat.zero_le _) (le_capM1_of_lt hWF hq)]

/-- "Ordered except upward at `p`": every live parent-child pair except
the one above `p` is ordered, and `p`'s parent's key already bounds the
keys of `p`'s live children (vacuously true when `p` has none). -/
def AlmostUp {α : Type} [LinearOrder α] (key : ℕ → α) (h : Heap_Id) (p : ℕ) : Prop :=
  (∀ j, 0 < j → j < h.nb_elem → j ≠ p →
      h.keyAt key (posFather j) ≤ h.keyAt key j) ∧
  (∀ j, j < h.nb_elem → posFather j = p → j ≠ p →
      h.keyAt key (posFather p) ≤ h.keyAt key j)

/-- The while-loop of `raise`, started within the fuel bound on an
almost-ordered state, terminates successfully in a well-formed fully
ordered state with the same live pairs. -/
lemma raiseLoop_spec {α : Type} [LinearOrder α] (key : ℕ → α) :
    ∀ fuel (h : Heap_Id) (p : ℕ), WF h → p < fuel → p < h.nb_elem →
    AlmostUp key h p →
    ∃ h', Heap_Id.raiseLoop key fuel h p = some h' ∧
      h'.capacity = h.capacity ∧ h'.nb_elem = h.nb_elem ∧
      h'.id_free = h.id_free ∧
      (∀ pr, LivePair h' pr ↔ LivePair h pr) ∧
      (PtrsInj h → PtrsInj h') ∧
      WF h' ∧ HeapOrdered key h' := by
  intro fuel
  induction fuel with
  | zero => intro h p _ hf; omega
  | succ fuel ih =>
    intro h p hWF hfuel hpn hAU
    have hpc : p < h.capacity := lt_of_lt_of_le hpn hWF.nb_le
    have hfc : posFather p < h.capacity := lt_of_le_of_lt (posFather_le p) hpc
    have hstep : Heap_Id.raiseLoop key (fuel + 1) h p =
        (if h.keyAt key p < h.keyAt key (posFather p) then
          (h.swap p (posFather p)).bind
            (fun h1 => Heap_Id.raiseLoop key fuel h1 (posFather p))
        else some h) := by
      simp only [Heap_Id.raiseLoop, get_pos_father_eq (le_capM1_of_lt hWF hpc),
        lt_spec key hWF hpc hfc, Option.bind_eq_bind, Option.some_bind]
      by_cases hc : h.keyAt key p < h.keyAt key (posFather p)
      · simp [hc]
      · simp [hc]
    by_cases hc : h.keyAt key p < h.keyAt key (posFather p)
    · -- violated above `p`: swap with the father and continue
      rw [hstep, if_pos hc]
      have hp0 : p ≠ 0 := by
        intro e
        rw [e] at hc
        exact absurd hc (by unfold posFather; simp)
      have hflt : posFather p < p := posFather_lt (Nat.pos_iff_ne_zero.mpr hp0)
      have hfn : posFather p < h.nb_elem := lt_trans hflt hpn
      obtain ⟨h1, hrun, hcap1, hnb1, hidf1, hEp, hEq, hEo, hpairs1, hptrs1, hWF1⟩ :=
        swap_spec hWF hpn hfn
      rw [hrun, Option.some_bind]
      -- keys after the swap
      have hk1 : h1.keyAt key p = h.keyAt key (posFather p) := by
        unfold Heap_Id.keyAt Heap_Id.ptrAt; rw [hEp]
      have hk2 : h1.keyAt key (posFather p) = h.keyAt key p := by
        unfold Heap_Id.keyAt Heap_Id.ptrAt; rw [hEq]
      have hk3 : ∀ r, r ≠ p → r ≠ posFather p →
          h1.keyAt key r = h.keyAt key r := by
        intro r h1r h2r
        unfold Heap_Id.keyAt Heap_Id.ptrAt; rw [hEo r h1r h2r]
      have hAU1 : AlmostUp key h1 (posFather p) := by
        constructor
        · intro j hj0 hjn hjf
          replace hjn : j < h.nb_elem := hnb1 ▸ hjn
          by_cases hjp : j = p
          · -- the pair above `p` now holds the two swapped keys in order
            rw [hjp, hk2, hk1]
            exact le_of_lt hc
          · by_cases hfjp : posFather j = p
            · -- a live child of `p`: bounded by the grandparent clause
              have hjgt : p < j := by
                have := posFather_lt hj0; omega
              rw [hfjp, hk1, hk3 j hjp hjf]
              exact hAU.2 j hjn hfjp hjp
            · by_cases hfjf : posFather j = posFather p
              · -- a sibling of `p` below the father
                rw [hfjf, hk2, hk3 j hjp hjf]
                have h2 := hAU.1 j hj0 hjn hjp
                rw [hfjf] at h2
                exact le_trans (le_of_lt hc) h2
              · rw [hk3 _ hfjp hfjf, hk3 j hjp hjf]
                exact hAU.1 j hj0 hjn hjp
        · intro j hjn hfjf hjnef
          replace hjn : j < h.nb_elem := hnb1 ▸ hjn
          have hj0 : 0 < j := by
            rcases Nat.eq_zero_or_pos j with rfl | hp'
            · exfalso
              have h00 : posFather 0 = 0 := by unfold posFather; simp
              rw [h00] at hfjf
              exact hjnef hfjf
            · exact hp'
          by_cases hf0 : posFather p = 0
          · -- the father is the root: after the swap it holds the risen
            -- (strictly smaller) key
            have hg : posFather (posFather p) = posFather p := by
              rw [hf0]; unfold posFather; simp
            rw [hg, hk2]
            by_cases hjp : j = p
            · rw [hjp, hk1]
              exact le_of_lt hc
            · rw [hk3 j hjp hjnef]
              have h2 := hAU.1 j hj0 hjn hjp
              rw [hfjf] at h2
              exact le_trans (le_of_lt hc) h2
          · -- a real grandparent: unchanged, bounded through the father
            have hglt : posFather (posFather p) < posFather p :=
              posFather_lt (Nat.pos_of_ne_zero hf0)
            have hgp : posFather (posFather p) ≠ p := by omega
            have hgf : posFather (posFather p) ≠ posFather p := by omega
            rw [hk3 _ hgp hgf]
            have hgf2 : h.keyAt key (posFather (posFather p)) ≤
                h.keyAt key (posFather p) :=
              hAU.1 (posFather p) (Nat.pos_of_ne_zero hf0) hfn (by omega)
            by_cases hjp : j = p
            · rw [hjp, hk1]
              exact hgf2
            · rw [hk3 j hjp hjnef]
              have h2 := hAU.1 j hj0 hjn hjp
              rw [hfjf] at h2
              exact le_trans hgf2 h2
      obtain ⟨h2, hrun2, hcap2, hnb2, hidf2, hpairs2, hptrs2, hWF2, hO2⟩ :=
        ih h1 (posFather p) hWF1 (by omega) (by rw [hnb1]; exact hfn) hAU1
      refine ⟨h2, hrun2, by rw [hcap2, hcap1], by rw [hnb2, hnb1],
        by rw [hidf2, hidf1], fun pr => (hpairs2 pr).trans (hpairs1 pr),
        fun hPI => hptrs2 (hptrs1 hPI), hWF2, hO2⟩
    · rw [hstep, if_neg hc]
      refine ⟨h, rfl, rfl, rfl, rfl, fun pr => Iff.rfl, id, hWF, ?_⟩
      intro j hj0 hjn
      by_cases hjp : j = p
      · rw [hjp]; exact not_lt.mp (hjp ▸ hc)
      · exact hAU.1 j hj0 hjn hjp

/-- The root is the only fixed point of the parent map. -/
lemma posFather_eq_self {p : ℕ} (hp : posFather p = p) : p = 0 := by
  by_contra h0
  exact absurd hp (Nat.ne_of_lt (posFather_lt (Nat.pos_of_ne_zero h0)))

/-- `childLt` evaluates the short-circuited conjunct
`c < nb_elem && lt(c, pos)`. -/
lemma childLt_spec {α : Type} [LinearOrder α] (key : ℕ → α) {h : Heap_Id}
    (hWF : WF h) {c q : ℕ} (hq : q < h.capacity) :
    h.childLt key c q =
      some (decide (c < h.nb_elem) && decide (h.keyAt key c < h.keyAt key q)) := by
  unfold Heap_Id.childLt
  by_cases hcnb : c < h.nb_elem
  · rw [if_pos hcnb, lt_spec key hWF (lt_of_lt_of_le hcnb hWF.nb_le) hq]
    simp [hcnb]
  · rw [if_neg hcnb]
    simp [hcnb]

/-- "Ordered except downward at `p`": every live parent-child pair whose
parent is not `p` is ordered, and (for non-root `p`) `p`'s parent's key
bounds the keys of `p`'s live children. -/
def AlmostDown {α : Type} [LinearOrder α] (key : ℕ → α) (h : Heap_Id) (p : ℕ) : Prop :=
  (∀ j, 0 < j → j < h.nb_elem → posFather j ≠ p →
      h.keyAt key (posFather j) ≤ h.keyAt key j) ∧
  (p ≠ 0 → ∀ j, j < h.nb_elem → posFather j = p → j ≠ p →
      h.keyAt key (posFather p) ≤ h.keyAt key j)

/-- After swapping `p` with its strictly smaller child `w` (`w` minimal
among existing children), the state is ordered except downward at
`w`. -/
lemma almostDown_after_swap {α : Type} [LinearOrder α] {key : ℕ → α}
    {h h1 : Heap_Id} {p w : ℕ}
    (hAD : AlmostDown key h p)
    (hw : w = 2 * p + 1 ∨ w = 2 * p + 2) (hwn : w < h.nb_elem)
    (hkey2 : h.keyAt key w < h.keyAt key p)
    (hkey3 : ∀ o, (o = 2 * p + 1 ∨ o = 2 * p + 2) → o ≠ w → o < h.nb_elem →
      h.keyAt key w ≤ h.keyAt key o)
    (hnb1 : h1.nb_elem = h.nb_elem)
    (hEp : h1.elements.getD p (0, 0) = h.elements.getD w (0, 0))
    (hEq : h1.elements.getD w (0, 0) = h.elements.getD p (0, 0))
    (hEo : ∀ r, r ≠ p → r ≠ w →
      h1.elements.getD r (0, 0) = h.elements.getD r (0, 0)) :
    AlmostDown key h1 w := by
  have hpw : p < w := by omega
  have hfw : posFather w = p := posFather_child hw
  have hk1 : h1.keyAt key p = h.keyAt key w := by
    unfold Heap_Id.keyAt Heap_Id.ptrAt; rw [hEp]
  have hk2 : h1.keyAt key w = h.keyAt key p := by
    unfold Heap_Id.keyAt Heap_Id.ptrAt; rw [hEq]
  have hk3 : ∀ r, r ≠ p → r ≠ w → h1.keyAt key r = h.keyAt key r := by
    intro r h1r h2r
    unfold Heap_Id.keyAt Heap_Id.ptrAt; rw [hEo r h1r h2r]
  constructor
  · intro j hj0 hjn hfjw
    replace hjn : j < h.nb_elem := hnb1 ▸ hjn
    by_cases hjp : j = p
    · have hp0 : p ≠ 0 := by omega
      have hfp_p : posFather p ≠ p := fun e => hp0 (posFather_eq_self e)
      have hfp_w : posFather p ≠ w := by
        have := posFather_le p; omega
      rw [hjp, hk3 _ hfp_p hfp_w, hk1]
      exact hAD.2 hp0 w hwn hfw (by omega)
    · by_cases hjw : j = w
      · rw [hjw, hfw, hk1, hk2]
        exact le_of_lt hkey2
      · by_cases hfjp : posFather j = p
        · rw [hfjp, hk1, hk3 j hjp hjw]
          exact hkey3 j (child_of_posFather hfjp hjp) hjw hjn
        · rw [hk3 _ hfjp hfjw, hk3 j hjp hjw]
          exact hAD.1 j hj0 hjn hfjp
  · intro _hw0 j hjn hfjw hjw
    replace hjn : j < h.nb_elem := hnb1 ▸ hjn
    have hj0 : 0 < j := by
      rcases Nat.eq_zero_or_pos j with rfl | hp'
      · exfalso
        have h00 : posFather 0 = 0 := by unfold posFather; simp
        rw [h00] at hfjw
        omega
      · exact hp'
    have hjgt : w < j := by
      have := posFather_lt hj0
      omega
    have hjp : j ≠ p := by omega
    rw [hfw, hk1, hk3 j hjp hjw]
    have h2 := hAD.1 j hj0 hjn (by rw [hfjw]; omega)
    rwa [hfjw] at h2

/-- One unfolding of the while-loop of `lower` on a well-formed state:
the loop body either swaps `p` with the smaller of its strictly smaller
existing children and continues there, or exits. -/
lemma lowerLoop_succ_eq {α : Type} [LinearOrder α] (key : ℕ → α)
    (fuel : ℕ) (h : Heap_Id) (p : ℕ) (hWF : WF h) (hpc : p < h.capacity) :
    Heap_Id.lowerLoop key (fuel + 1) h p =
      if (2 * p + 1 < h.nb_elem ∧
            h.keyAt key (2 * p + 1) < h.keyAt key p) ∨
         (2 * p + 2 < h.nb_elem ∧
            h.keyAt key (2 * p + 2) < h.keyAt key p) then
        (if 2 * p + 2 < h.nb_elem ∧
            h.keyAt key (2 * p + 2) < h.keyAt key (2 * p + 1) then
          (h.swap p (2 * p + 2)).bind
            (fun h1 => Heap_Id.lowerLoop key fuel h1 (2 * p + 2))
        else
          (h.swap p (2 * p + 1)).bind
            (fun h1 => Heap_Id.lowerLoop key fuel h1 (2 * p + 1)))
      else some h := by
  have hmodL : (2 * p + 1) % U32 = 2 * p + 1 := by
    have := hWF.cap_lt
    apply Nat.mod_eq_of_lt
    unfold U32; omega
  have hmodR : (2 * p + 2) % U32 = 2 * p + 2 := by
    have := hWF.cap_lt
    apply Nat.mod_eq_of_lt
    unfold U32; omega
  have hle := le_capM1_of_lt hWF hpc
  by_cases hLn : 2 * p + 1 < h.nb_elem
  · by_cases hLp : h.keyAt key (2 * p + 1) < h.keyAt key p
    · by_cases hRn : 2 * p + 2 < h.nb_elem
      · simp only [Heap_Id.lowerLoop, get_pos_left_son_eq hle,
          get_pos_right_son_eq hle, hmodL, hmodR,
          childLt_spec key hWF hpc,
          lt_spec key hWF (lt_of_lt_of_le hRn hWF.nb_le)
            (lt_of_lt_of_le hLn hWF.nb_le),
          Option.bind_eq_bind, Option.some_bind]
        by_cases hRL : h.keyAt key (2 * p + 2) < h.keyAt key (2 * p + 1)
        · simp [hLn, hLp, hRn, hRL]
        · simp [hLn, hLp, hRn, hRL]
      · simp only [Heap_Id.lowerLoop, get_pos_left_son_eq hle,
          get_pos_right_son_eq hle, hmodL, hmodR,
          childLt_spec key hWF hpc, Option.bind_eq_bind, Option.some_bind]
        simp [hLn, hLp, hRn]
    · by_cases hRn : 2 * p + 2 < h.nb_elem
      · by_cases hRp : h.keyAt key (2 * p + 2) < h.keyAt key p
        · simp only [Heap_Id.lowerLoop, get_pos_left_son_eq hle,
            get_pos_right_son_eq hle, hmodL, hmodR,
            childLt_spec key hWF hpc,
            lt_spec key hWF (lt_of_lt_of_le hRn hWF.nb_le)
              (lt_of_lt_of_le hLn hWF.nb_le),
            Option.bind_eq_bind, Option.some_bind]
          by_cases hRL : h.keyAt key (2 * p + 2) < h.keyAt key (2 * p + 1)
          · simp [hLn, hLp, hRn, hRp, hRL]
          · simp [hLn, hLp, hRn, hRp, hRL]
        · simp only [Heap_Id.lowerLoop, get_pos_left_son_eq hle,
            get_pos_right_son_eq hle, hmodL, hmodR,
            childLt_spec key hWF hpc, Option.bind_eq_bind, Option.some_bind]
          simp [hLn, hLp, hRn, hRp]
      · simp only [Heap_Id.lowerLoop, get_pos_left_son_eq hle,
          get_pos_right_son_eq hle, hmodL, hmodR,
          childLt_spec key hWF hpc, Option.bind_eq_bind, Option.some_bind]
        simp [hLn, hLp, hRn]
  · have hRn : ¬ 2 * p + 2 < h.nb_elem := by omega
    simp only [Heap_Id.lowerLoop, get_pos_left_son_eq hle,
      get_pos_right_son_eq hle, hmodL, hmodR,
      childLt_spec key hWF hpc, Option.bind_eq_bind, Option.some_bind]
    simp [hLn, hRn]

/-- The while-loop of `lower`, started within the fuel bound on a state
ordered except downward at `p`, terminates successfully in a well-formed
fully ordered state with the same live pairs. -/
lemma lowerLoop_spec {α : Type} [LinearOrder α] (key : ℕ → α) :
    ∀ fuel (h : Heap_Id) (p : ℕ), WF h → h.nb_elem - p < fuel →
    p < h.capacity →
    AlmostDown key h p →
    ∃ h', Heap_Id.lowerLoop key fuel h p = some h' ∧
      h'.capacity = h.capacity ∧ h'.nb_elem = h.nb_elem ∧
      h'.id_free = h.id_free ∧
      (∀ pr, LivePair h' pr ↔ LivePair h pr) ∧
      (PtrsInj h → PtrsInj h') ∧
      WF h' ∧ HeapOrdered key h' := by
  intro fuel
  induction fuel with
  | zero => intro h p _ hf; omega
  | succ fuel ih =>
    intro h p hWF hfuel hpc hAD
    rw [lowerLoop_succ_eq key fuel h p hWF hpc]
    by_cases hcond :
        (2 * p + 1 < h.nb_elem ∧ h.keyAt key (2 * p + 1) < h.keyAt key p) ∨
        (2 * p + 2 < h.nb_elem ∧ h.keyAt key (2 * p + 2) < h.keyAt key p)
    · -- some child is strictly smaller: swap with the smaller child
      rw [if_pos hcond]
      have hpn : p < h.nb_elem := by omega
      have hLn : 2 * p + 1 < h.nb_elem := by omega
      by_cases hbr :
          2 * p + 2 < h.nb_elem ∧
            h.keyAt key (2 * p + 2) < h.keyAt key (2 * p + 1)
      · -- swap with the right son
        rw [if_pos hbr]
        have hw2 : h.keyAt key (2 * p + 2) < h.keyAt key p := by
          rcases hcond with ⟨_, hL⟩ | ⟨_, hR⟩
          · exact lt_trans hbr.2 hL
          · exact hR
        obtain ⟨h1, hrun, hcap1, hnb1, hidf1, hEp, hEq, hEo, hpairs1, hptrs1, hWF1⟩ :=
          swap_spec hWF hpn hbr.1
        have hAD1 : AlmostDown key h1 (2 * p + 2) :=
          almostDown_after_swap hAD (Or.inr rfl) hbr.1 hw2
            (fun o ho hone honb => by
              rcases ho with rfl | rfl
              · exact le_of_lt hbr.2
              · omega)
            hnb1 hEp hEq hEo
        obtain ⟨h2, hrun2, hcap2, hnb2, hidf2, hpairs2, hptrs2, hWF2, hO2⟩ :=
          ih h1 (2 * p + 2) hWF1
            (by rw [hnb1]; omega)
            (by rw [hcap1]; exact lt_of_lt_of_le hbr.1 hWF.nb_le)
            hAD1
        rw [hrun, Option.some_bind, hrun2]
        exact ⟨h2, rfl, by rw [hcap2, hcap1], by rw [hnb2, hnb1],
          by rw [hidf2, hidf1], fun pr => (hpairs2 pr).trans (hpairs1 pr),
          fun hPI => hptrs2 (hptrs1 hPI), hWF2, hO2⟩
      · -- swap with the left son
        rw [if_neg hbr]
        have hw2 : h.keyAt key (2 * p + 1) < h.keyAt key p := by
          rcases hcond with ⟨_, hL⟩ | ⟨hRn, hR⟩
          · exact hL
          · have hLR : h.keyAt key (2 * p + 1) ≤ h.keyAt key (2 * p + 2) := by
              by_contra hlt
              exact hbr ⟨hRn, lt_of_not_le hlt⟩
            exact lt_of_le_of_lt hLR hR
        obtain ⟨h1, hrun, hcap1, hnb1, hidf1, hEp, hEq, hEo, hpairs1, hptrs1, hWF1⟩ :=
          swap_spec hWF hpn hLn
        have hAD1 : AlmostDown key h1 (2 * p + 1) :=
          almostDown_after_swap hAD (Or.inl rfl) hLn hw2
            (fun o ho hone honb => by
              rcases ho with rfl | rfl
              · omega
              · by_contra hlt
                exact hbr ⟨honb, lt_of_not_le fun hle2 => hlt hle2⟩)
            hnb1 hEp hEq hEo
        obtain ⟨h2, hrun2, hcap2, hnb2, hidf2, hpairs2, hptrs2, hWF2, hO2⟩ :=
          ih h1 (2 * p + 1) hWF1
            (by rw [hnb1]; omega)
            (by rw [hcap1]; exact lt_of_lt_of_le hLn hWF.nb_le)
            hAD1
        rw [hrun, Option.some_bind, hrun2]
        exact ⟨h2, rfl, by rw [hcap2, hcap1], by rw [hnb2, hnb1],
          by rw [hidf2, hidf1], fun pr => (hpairs2 pr).trans (hpairs1 pr),
          fun hPI => hptrs2 (hptrs1 hPI), hWF2, hO2⟩
    · -- no child is smaller: the loop exits, the heap is ordered
      rw [if_neg hcond]
      push_neg at hcond
      refine ⟨h, rfl, rfl, rfl, rfl, fun pr => Iff.rfl, id, hWF, ?_⟩
      intro j hj0 hjn
      by_cases hfjp : posFather j = p
      · have hjp : j ≠ p := by
          intro e
          rw [e] at hfjp
          exact absurd (posFather_eq_self hfjp) (by omega)
        have hch := child_of_posFather hfjp hjp
        rw [hfjp]
        rcases hch with rfl | rfl
        · exact hcond.1 hjn
        · exact hcond.2 hjn
      · exact hAD.1 j hj0 hjn hfjp

/-- Array access plumbing: in-bounds `get?` agrees with `getD`. -/
lemma get?_eq_getD {β : Type} (a : Array β) (d : β) {i : ℕ}
    (hi : i < a.size) : a.get? i = some (a.getD i d) := by
  simp [Array.get?_eq_getElem?, Array.getD_eq_get?, Array.getElem?_lt _ hi]

/-- Complete description of a successful `push` on a well-formed ordered
heap with room, when the drawn handle `id_free[nb_elem] = nb_elem` does
not collide with a live handle: the pair `(v, nb_elem)` joins the live
region, order and well-formedness are preserved, and the drawn handle is
returned. -/
lemma push_spec {α : Type} [LinearOrder α] (key : ℕ → α) {h : Heap_Id} (v : ℕ)
    (hWF : WF h) (hO : HeapOrdered key h) (hroom : h.nb_elem < h.capacity)
    (hfresh : ∀ p, p < h.nb_elem → h.idAt p ≠ h.nb_elem) :
    ∃ h', h.push key v = some (h.nb_elem, h') ∧
      h'.capacity = h.capacity ∧ h'.nb_elem = h.nb_elem + 1 ∧
      h'.id_free = h.id_free ∧
      (∀ pr, LivePair h' pr ↔ LivePair h pr ∨ pr = (v, h.nb_elem)) ∧
      ((∀ p, p < h.nb_elem → h.ptrAt p ≠ v) → PtrsInj h → PtrsInj h') ∧
      WF h' ∧ HeapOrdered key h' := by
  have hidfree : h.id_free.getD h.nb_elem 0 = h.nb_elem :=
    hWF.id_free_id _ hroom
  have hnbe : h.nb_elem < h.elements.size := by
    rw [hWF.size_elements]; exact hroom
  have hnbi : h.nb_elem < h.id_to_pos.size := by
    rw [hWF.size_id_to_pos]; exact hroom
  set h1 : Heap_Id := { h with
    elements := h.elements.setD h.nb_elem (v, h.nb_elem),
    id_to_pos := h.id_to_pos.setD h.nb_elem h.nb_elem,
    nb_elem := h.nb_elem + 1 } with hh1
  have hE1 : h1.elements.getD h.nb_elem (0, 0) = (v, h.nb_elem) :=
    getD_setD_eq _ _ _ hnbe
  have hE2 : ∀ r, r ≠ h.nb_elem →
      h1.elements.getD r (0, 0) = h.elements.getD r (0, 0) := by
    intro r hr
    exact getD_setD_ne _ _ _ (Ne.symm hr)
  have hid1 : h1.idAt h.nb_elem = h.nb_elem := by
    unfold Heap_Id.idAt; rw [hE1]
  have hid2 : ∀ r, r ≠ h.nb_elem → h1.idAt r = h.idAt r := by
    intro r hr; unfold Heap_Id.idAt; rw [hE2 r hr]
  have hWF1 : WF h1 := by
    constructor
    · exact hWF.cap_lt
    · show (h.elements.setD _ _).size = h.capacity
      simp [hWF.size_elements]
    · show (h.id_to_pos.setD _ _).size = h.capacity
      simp [hWF.size_id_to_pos]
    · show h.nb_elem + 1 ≤ h.capacity
      omega
    · intro p hp
      replace hp : p < h.nb_elem + 1 := hp
      by_cases hpn : p = h.nb_elem
      · rw [hpn, hid1]; exact hroom
      · rw [hid2 p hpn]; exact hWF.ids_lt p (by omega)
    · intro a b ha hb hab
      replace ha : a < h.nb_elem + 1 := ha
      replace hb : b < h.nb_elem + 1 := hb
      by_cases han : a = h.nb_elem
      · by_cases hbn : b = h.nb_elem
        · rw [han, hbn]
        · rw [han, hid1] at hab
          rw [hid2 b hbn] at hab
          exact absurd hab.symm (hfresh b (by omega))
      · by_cases hbn : b = h.nb_elem
        · rw [hbn, hid1] at hab
          rw [hid2 a han] at hab
          exact absurd hab (hfresh a (by omega))
        · rw [hid2 a han, hid2 b hbn] at hab
          exact hWF.ids_inj a b (by omega) (by omega) hab
    · intro p hp
      replace hp : p < h.nb_elem + 1 := hp
      by_cases hpn : p = h.nb_elem
      · rw [hpn, hid1]
        show (h.id_to_pos.setD h.nb_elem h.nb_elem).getD h.nb_elem 0 = h.nb_elem
        exact getD_setD_eq _ _ _ hnbi
      · rw [hid2 p hpn]
        have hne : h.nb_elem ≠ h.idAt p := fun e => hfresh p (by omega) e.symm
        show (h.id_to_pos.setD h.nb_elem h.nb_elem).getD (h.idAt p) 0 = p
        rw [getD_setD_ne _ _ _ hne]
        exact hWF.id_pos p (by omega)
    · exact hWF.id_free_id
  have hAU1 : AlmostUp key h1 h.nb_elem := by
    constructor
    · intro j hj0 hjn hjne
      replace hjn : j < h.nb_elem + 1 := hjn
      have hjlt : j < h.nb_elem := by omega
      have hfne : posFather j ≠ h.nb_elem := by
        have := posFather_le j; omega
      unfold Heap_Id.keyAt Heap_Id.ptrAt
      rw [hE2 j hjne, hE2 _ hfne]
      exact hO j hj0 hjlt
    · intro j hjn hfj hjne
      exfalso
      replace hjn : j < h.nb_elem + 1 := hjn
      rcases Nat.eq_zero_or_pos j with rfl | hj0
      · have h00 : posFather 0 = 0 := by unfold posFather; simp
        rw [h00] at hfj
        exact hjne hfj
      · have := posFather_lt hj0
        omega
  obtain ⟨h2, hrun2, hcap2, hnb2, hidf2, hpairs2, hptrs2, hWF2, hO2⟩ :=
    raiseLoop_spec key (h.nb_elem + 1) h1 h.nb_elem hWF1 (by omega)
      (by show h.nb_elem < h.nb_elem + 1; omega) hAU1
  refine ⟨h2, ?_, by rw [hcap2], by rw [hnb2], by rw [hidf2], ?_, ?_, hWF2, hO2⟩
  · -- reduce the body of push to the raise loop
    have hram : h.nb_elem ≤ h1.capM1 :=
      le_capM1_of_lt hWF1 (by show h.nb_elem < h.capacity; omega)
    simp only [Heap_Id.push, assertB, decide_eq_true_eq, hroom, if_true,
      Option.bind_eq_bind, Option.some_bind, hidfree, Heap_Id.raise,
      Nat.add_sub_cancel]
    rw [← hh1]
    simp only [ASSERT_IN_RANGE_pass (Nat.zero_le _) hram,
      Option.bind_eq_bind, Option.some_bind, hrun2]
    rfl
  · intro pr
    constructor
    · intro hlp
      obtain ⟨p, hp, hppr⟩ := (hpairs2 pr).mp hlp
      replace hp : p < h.nb_elem + 1 := hp
      by_cases hpn : p = h.nb_elem
      · right; rw [← hppr, hpn, hE1]
      · left; exact ⟨p, by omega, by rw [← hppr, hE2 p hpn]⟩
    · intro hlp
      apply (hpairs2 pr).mpr
      rcases hlp with ⟨p, hp, hppr⟩ | rfl
      · exact ⟨p, by show p < h.nb_elem + 1; omega,
          by rw [hE2 p (by omega), hppr]⟩
      · exact ⟨h.nb_elem, by show h.nb_elem < h.nb_elem + 1; omega, hE1⟩
  · intro hvfresh hPI
    apply hptrs2
    intro a b ha hb hab
    replace ha : a < h.nb_elem + 1 := ha
    replace hb : b < h.nb_elem + 1 := hb
    have hP1 : h1.ptrAt h.nb_elem = v := by
      unfold Heap_Id.ptrAt; rw [hE1]
    have hP2 : ∀ r, r ≠ h.nb_elem → h1.ptrAt r = h.ptrAt r := by
      intro r hr; unfold Heap_Id.ptrAt; rw [hE2 r hr]
    by_cases han : a = h.nb_elem
    · by_cases hbn : b = h.nb_elem
      · rw [han, hbn]
      · rw [han, hP1] at hab
        rw [hP2 b hbn] at hab
        exact absurd hab.symm (hvfresh b (by omega))
    · by_cases hbn : b = h.nb_elem
      · rw [hbn, hP1] at hab
        rw [hP2 a han] at hab
        exact absurd hab (hvfresh a (by omega))
      · rw [hP2 a han, hP2 b hbn] at hab
        exact hPI a b (by omega) (by omega) hab

/-- Complete description of a successful `pop` on a nonempty well-formed
ordered heap: the pointer of the root pair is returned, exactly the root
pair leaves the live region, and well-formedness and order are
preserved. -/
lemma pop_spec {α : Type} [LinearOrder α] (key : ℕ → α) {h : Heap_Id}
    (hWF : WF h) (hO : HeapOrdered key h) (hnb : 0 < h.nb_elem) :
    ∃ h', h.pop key = some (h.ptrAt 0, h') ∧
      h'.capacity = h.capacity ∧ h'.nb_elem = h.nb_elem - 1 ∧
      h'.id_free = h.id_free ∧
      (∀ pr, LivePair h' pr ↔
        (LivePair h pr ∧ pr ≠ h.elements.getD 0 (0, 0))) ∧
      (PtrsInj h → PtrsInj h') ∧
      (∀ pr, LivePair h pr → h.keyAt key 0 ≤ key pr.1) ∧
      WF h' ∧ HeapOrdered key h' := by
  have hcap1 : 1 ≤ h.capacity := le_trans hnb hWF.nb_le
  have hlast : (h.nb_elem + (U32 - 1)) % U32 = h.nb_elem - 1 := by
    have h1 := hWF.nb_le
    have h2 := hWF.cap_lt
    unfold U32
    omega
  have hn1 : h.nb_elem - 1 < h.nb_elem := by omega
  obtain ⟨h1, hrun1, hcap1', hnb1, hidf1, hEp, hEq, hEo, hpairs1, hptrs1, hWF1⟩ :=
    swap_spec hWF hnb hn1
  have hlast1 : (h1.nb_elem + (U32 - 1)) % U32 = h.nb_elem - 1 := by
    rw [hnb1]; exact hlast
  set h2 : Heap_Id := { h1 with nb_elem := h1.nb_elem - 1 } with hh2
  have hnb2 : h2.nb_elem = h.nb_elem - 1 := by
    show h1.nb_elem - 1 = h.nb_elem - 1
    rw [hnb1]
  have hWF2 : WF h2 := by
    constructor
    · exact hWF1.cap_lt
    · exact hWF1.size_elements
    · exact hWF1.size_id_to_pos
    · show h1.nb_elem - 1 ≤ h1.capacity
      have := hWF1.nb_le; omega
    · intro p hp
      exact hWF1.ids_lt p (by
        have : p < h1.nb_elem - 1 := hp
        omega)
    · intro a b ha hb hab
      refine hWF1.ids_inj a b ?_ ?_ hab
      · have : a < h1.nb_elem - 1 := ha
        omega
      · have : b < h1.nb_elem - 1 := hb
        omega
    · intro p hp
      exact hWF1.id_pos p (by
        have : p < h1.nb_elem - 1 := hp
        omega)
    · exact hWF1.id_free_id
  have hAD2 : AlmostDown key h2 0 := by
    constructor
    · intro j hj0 hjn hfj0
      replace hjn : j < h1.nb_elem - 1 := hjn
      have hjn' : j < h.nb_elem := by rw [hnb1] at hjn; omega
      have hjne : j ≠ h.nb_elem - 1 := by rw [hnb1] at hjn; omega
      have hfne : posFather j ≠ h.nb_elem - 1 := by
        have := posFather_lt hj0
        rw [hnb1] at hjn
        omega
      have hjne0 : j ≠ 0 := by omega
      show h2.keyAt key (posFather j) ≤ h2.keyAt key j
      have he2 : h2.elements = h1.elements := rfl
      have e1 : h2.keyAt key (posFather j) = h.keyAt key (posFather j) := by
        unfold Heap_Id.keyAt Heap_Id.ptrAt
        rw [he2, hEo _ hfj0 hfne]
      have e2 : h2.keyAt key j = h.keyAt key j := by
        unfold Heap_Id.keyAt Heap_Id.ptrAt
        rw [he2, hEo _ hjne0 hjne]
      rw [e1, e2]
      exact hO j hj0 hjn'
    · intro h0
      exact absurd rfl h0
  obtain ⟨h3, hrun3, hcap3, hnb3, hidf3, hpairs3, hptrs3, hWF3, hO3⟩ :=
    lowerLoop_spec key (h2.nb_elem + 1) h2 0 hWF2 (by omega)
      (by show 0 < h1.capacity; rw [hcap1']; omega) hAD2
  refine ⟨h3, ?_, by rw [hcap3]; exact hcap1', by rw [hnb3, hnb2],
    by rw [hidf3]; exact hidf1, ?_, ?_, ?_, hWF3, hO3⟩
  · -- reduce the body of pop
    have hassert : ASSERT_IN_RANGE 0 0 h2.capM1 = some () :=
      ASSERT_IN_RANGE_pass (le_refl 0) (Nat.zero_le _)
    have hlow : h2.lower key 0 = some h3 := by
      show (Option.bind (ASSERT_IN_RANGE 0 0 h2.capM1) (fun _ =>
        Heap_Id.lowerLoop key (h2.nb_elem + 1) h2 0)) = some h3
      rw [hassert, Option.some_bind]
      exact hrun3
    have e0 : h.pop key =
        Option.bind (h.swap 0 ((h.nb_elem + (U32 - 1)) % U32)) (fun h1 =>
          Option.bind
            ((Heap_Id.mk h1.capacity h1.elements (h1.nb_elem - 1)
               h1.id_to_pos h1.id_free).lower key 0) (fun h3 =>
            some ((h1.elements.getD ((h1.nb_elem + (U32 - 1)) % U32)
              (0, 0)).1, h3))) := rfl
    rw [e0, hlast, hrun1, Option.some_bind]
    have hfold : Heap_Id.mk h1.capacity h1.elements (h1.nb_elem - 1)
        h1.id_to_pos h1.id_free = h2 := rfl
    rw [hfold, hlow, Option.some_bind, hlast1, hEq]
    rfl
  · intro pr
    rw [hpairs3 pr]
    constructor
    · rintro ⟨p, hp, hppr⟩
      replace hp : p < h1.nb_elem - 1 := hp
      have hpnb : p < h.nb_elem - 1 := by rw [hnb1] at hp; omega
      have hppr1 : h1.elements.getD p (0, 0) = pr := hppr
      by_cases hp0 : p = 0
      · rw [hp0] at hppr1
        rw [hEp] at hppr1
        refine ⟨⟨h.nb_elem - 1, hn1, hppr1⟩, ?_⟩
        intro he
        have : h.idAt (h.nb_elem - 1) = h.idAt 0 := by
          unfold Heap_Id.idAt
          rw [hppr1, he]
        have := hWF.ids_inj _ _ hn1 hnb this
        omega
      · have hpne : p ≠ h.nb_elem - 1 := by omega
        rw [hEo p hp0 hpne] at hppr1
        refine ⟨⟨p, by omega, hppr1⟩, ?_⟩
        intro he
        have : h.idAt p = h.idAt 0 := by
          unfold Heap_Id.idAt
          rw [hppr1, he]
        have := hWF.ids_inj _ _ (by omega : p < h.nb_elem) hnb this
        omega
    · rintro ⟨⟨p, hp, hppr⟩, hne⟩
      by_cases hp0 : p = 0
      · exact absurd (by rw [← hppr, hp0]) hne
      · by_cases hpl : p = h.nb_elem - 1
        · refine ⟨0, ?_, ?_⟩
          · show 0 < h1.nb_elem - 1
            rw [hnb1]
            omega
          · show h1.elements.getD 0 (0, 0) = pr
            rw [hEp, ← hpl, hppr]
        · refine ⟨p, ?_, ?_⟩
          · show p < h1.nb_elem - 1
            rw [hnb1]
            omega
          · show h1.elements.getD p (0, 0) = pr
            rw [hEo p hp0 hpl, hppr]
  · intro hPI
    apply hptrs3
    intro a b ha hb hab
    replace ha : a < h1.nb_elem - 1 := ha
    replace hb : b < h1.nb_elem - 1 := hb
    exact hptrs1 hPI a b (by omega) (by omega) hab
  · rintro pr ⟨p, hp, hppr⟩
    have := root_min hO p hp
    unfold Heap_Id.keyAt Heap_Id.ptrAt at this ⊢
    rw [hppr] at this
    exact this

/-- Complete description of a successful `reposition` on a well-formed
heap that was ordered under the previous key function, after the key of
the single element at position `p0` (the one with handle `i`) was
mutated: the call succeeds, the live pairs are unchanged and the heap is
ordered under the new key function. -/
lemma reposition_spec {α : Type} [LinearOrder α] (key key' : ℕ → α)
    {h : Heap_Id} (hWF : WF h) (hO : HeapOrdered key h) {i p0 : ℕ}
    (hp0 : p0 < h.nb_elem) (hid : h.idAt p0 = i)
    (hmut : ∀ r, r < h.nb_elem → r ≠ p0 → h.keyAt key' r = h.keyAt key r) :
    ∃ h', h.reposition key' i = some h' ∧
      h'.capacity = h.capacity ∧ h'.nb_elem = h.nb_elem ∧
      h'.id_free = h.id_free ∧
      (∀ pr, LivePair h' pr ↔ LivePair h pr) ∧
      (PtrsInj h → PtrsInj h') ∧
      WF h' ∧ HeapOrdered key' h' := by
  have hp0c : p0 < h.capacity := lt_of_lt_of_le hp0 hWF.nb_le
  have hic : i < h.capacity := hid ▸ hWF.ids_lt p0 hp0
  have hisz : i < h.id_to_pos.size := by
    rw [hWF.size_id_to_pos]; exact hic
  have hgp0 : h.id_to_pos.getD i 0 = p0 := by
    rw [← hid]; exact hWF.id_pos p0 hp0
  have hget1 : h.id_to_pos.get? i = some p0 := by
    rw [get?_eq_getD _ 0 hisz, hgp0]
  rcases le_or_lt (h.keyAt key' p0) (h.keyAt key p0) with hdec | hinc
  · -- the key at `p0` did not increase: `raise` restores the full order
    have hAU : AlmostUp key' h p0 := by
      constructor
      · intro j hj0 hjn hjne
        by_cases hfj : posFather j = p0
        · have hOj := hO j hj0 hjn
          rw [hfj] at hOj
          rw [hfj, hmut j hjn hjne]
          exact le_trans hdec hOj
        · rw [hmut j hjn hjne,
            hmut _ (lt_trans (posFather_lt hj0) hjn) hfj]
          exact hO j hj0 hjn
      · intro j hjn hfj hjne
        have hj0 : 0 < j := by
          rcases Nat.eq_zero_or_pos j with rfl | hpos
          · exfalso
            apply hjne
            rw [← hfj]
            unfold posFather
            simp
          · exact hpos
        have hOj := hO j hj0 hjn
        rw [hfj] at hOj
        have hkj : h.keyAt key' j = h.keyAt key j := hmut j hjn hjne
        by_cases hf0 : posFather p0 = p0
        · rw [hf0, hkj]
          exact le_trans hdec hOj
        · have hp0pos : 0 < p0 := by
            rcases Nat.eq_zero_or_pos p0 with rfl | hpos
            · exfalso
              apply hf0
              unfold posFather
              simp
            · exact hpos
          have hfn : posFather p0 < h.nb_elem :=
            lt_trans (posFather_lt hp0pos) hp0
          rw [hmut _ hfn hf0, hkj]
          exact le_trans (hO p0 hp0pos hp0) hOj
    obtain ⟨h1, hrun1, hcap1, hnb1, hidf1, hpairs1, hptrs1, hWF1, hO1⟩ :=
      raiseLoop_spec key' (p0 + 1) h p0 hWF (by omega) hp0 hAU
    have hraise : h.raise key' p0 = some h1 := by
      show (Option.bind (ASSERT_IN_RANGE p0 0 h.capM1) (fun _ =>
        Heap_Id.raiseLoop key' (p0 + 1) h p0)) = some h1
      rw [ASSERT_IN_RANGE_pass (Nat.zero_le _) (le_capM1_of_lt hWF hp0c),
        Option.some_bind]
      exact hrun1
    have hlivepr : LivePair h1 (h.elements.getD p0 (0, 0)) :=
      (hpairs1 _).mpr ⟨p0, hp0, rfl⟩
    obtain ⟨p2, hp2, hpe2⟩ := hlivepr
    have hid2 : h1.idAt p2 = i := by
      unfold Heap_Id.idAt
      rw [hpe2]
      exact hid
    have hisz1 : i < h1.id_to_pos.size := by
      rw [hWF1.size_id_to_pos, hcap1]; exact hic
    have hget2 : h1.id_to_pos.get? i = some p2 := by
      rw [get?_eq_getD _ 0 hisz1, ← hid2, hWF1.id_pos p2 hp2]
    have hAD : AlmostDown key' h1 p2 := by
      constructor
      · intro j hj0 hjn _
        exact hO1 j hj0 hjn
      · intro hp2ne j hjn hfj _
        have hj0 : 0 < j := by
          rcases Nat.eq_zero_or_pos j with rfl | hpos
          · exfalso
            apply hp2ne
            rw [← hfj]
            unfold posFather
            simp
          · exact hpos
        have hOj := hO1 j hj0 hjn
        rw [hfj] at hOj
        exact le_trans (hO1 p2 (Nat.pos_of_ne_zero hp2ne) hp2) hOj
    have hp2c : p2 < h1.capacity := lt_of_lt_of_le hp2 hWF1.nb_le
    obtain ⟨h2, hrun2, hcap2, hnb2, hidf2, hpairs2, hptrs2, hWF2, hO2⟩ :=
      lowerLoop_spec key' (h1.nb_elem + 1) h1 p2 hWF1 (by omega) hp2c hAD
    have hlow : h1.lower key' p2 = some h2 := by
      show (Option.bind (ASSERT_IN_RANGE p2 0 h1.capM1) (fun _ =>
        Heap_Id.lowerLoop key' (h1.nb_elem + 1) h1 p2)) = some h2
      rw [ASSERT_IN_RANGE_pass (Nat.zero_le _) (le_capM1_of_lt hWF1 hp2c),
        Option.some_bind]
      exact hrun2
    refine ⟨h2, ?_, by rw [hcap2, hcap1], by rw [hnb2, hnb1],
      by rw [hidf2, hidf1],
      fun pr => (hpairs2 pr).trans (hpairs1 pr),
      fun hPI => hptrs2 (hptrs1 hPI), hWF2, hO2⟩
    show (Option.bind (h.id_to_pos.get? i) (fun p1 =>
      Option.bind (h.raise key' p1) (fun hm =>
        Option.bind (hm.id_to_pos.get? i) (fun pl =>
          hm.lower key' pl)))) = some h2
    rw [hget1, Option.some_bind, hraise, Option.some_bind, hget2,
      Option.some_bind, hlow]
  · -- the key at `p0` increased: `raise` exits at once, `lower` restores
    have hnlt : ¬ h.keyAt key' p0 < h.keyAt key' (posFather p0) := by
      by_cases hp00 : p0 = 0
      · subst hp00
        have hf : posFather 0 = 0 := by unfold posFather; simp
        rw [hf]
        exact lt_irrefl _
      · have hp0pos : 0 < p0 := Nat.pos_of_ne_zero hp00
        have hf_ne : posFather p0 ≠ p0 := fun e => hp00 (posFather_eq_self e)
        have hfn : posFather p0 < h.nb_elem :=
          lt_trans (posFather_lt hp0pos) hp0
        rw [hmut _ hfn hf_ne]
        exact not_lt.mpr
          (le_of_lt (lt_of_le_of_lt (hO p0 hp0pos hp0) hinc))
    have hfpc : posFather p0 < h.capacity :=
      lt_of_le_of_lt (posFather_le p0) hp0c
    have hraise0 : Heap_Id.raiseLoop key' (p0 + 1) h p0 = some h := by
      simp only [Heap_Id.raiseLoop,
        get_pos_father_eq (le_capM1_of_lt hWF hp0c),
        lt_spec key' hWF hp0c hfpc, Option.bind_eq_bind, Option.some_bind]
      simp [hnlt]
    have hraise : h.raise key' p0 = some h := by
      show (Option.bind (ASSERT_IN_RANGE p0 0 h.capM1) (fun _ =>
        Heap_Id.raiseLoop key' (p0 + 1) h p0)) = some h
      rw [ASSERT_IN_RANGE_pass (Nat.zero_le _) (le_capM1_of_lt hWF hp0c),
        Option.some_bind]
      exact hraise0
    have hAD : AlmostDown key' h p0 := by
      constructor
      · intro j hj0 hjn hfj
        by_cases hjp : j = p0
        · subst hjp
          have hfn : posFather j < h.nb_elem :=
            lt_trans (posFather_lt hj0) hjn
          rw [hmut _ hfn hfj]
          exact le_of_lt (lt_of_le_of_lt (hO j hj0 hjn) hinc)
        · rw [hmut j hjn hjp,
            hmut _ (lt_trans (posFather_lt hj0) hjn) hfj]
          exact hO j hj0 hjn
      · intro hp0ne j hjn hfj hjne
        have hp0pos : 0 < p0 := Nat.pos_of_ne_zero hp0ne
        have hf_ne : posFather p0 ≠ p0 := fun e => hp0ne (posFather_eq_self e)
        have hfn : posFather p0 < h.nb_elem :=
          lt_trans (posFather_lt hp0pos) hp0
        have hj0 : 0 < j := by
          rcases Nat.eq_zero_or_pos j with rfl | hpos
          · exfalso
            apply hp0ne
            rw [← hfj]
            unfold posFather
            simp
          · exact hpos
        have hOj := hO j hj0 hjn
        rw [hfj] at hOj
        have hkj : h.keyAt key' j = h.keyAt key j := hmut j hjn hjne
        rw [hmut _ hfn hf_ne, hkj]
        exact le_trans (hO p0 hp0pos hp0) hOj
    obtain ⟨h2, hrun2, hcap2, hnb2, hidf2, hpairs2, hptrs2, hWF2, hO2⟩ :=
      lowerLoop_spec key' (h.nb_elem + 1) h p0 hWF (by omega) hp0c hAD
    have hlow : h.lower key' p0 = some h2 := by
      show (Option.bind (ASSERT_IN_RANGE p0 0 h.capM1) (fun _ =>
        Heap_Id.lowerLoop key' (h.nb_elem + 1) h p0)) = some h2
      rw [ASSERT_IN_RANGE_pass (Nat.zero_le _) (le_capM1_of_lt hWF hp0c),
        Option.some_bind]
      exact hrun2
    refine ⟨h2, ?_, hcap2, hnb2, hidf2, hpairs2, hptrs2, hWF2, hO2⟩
    show (Option.bind (h.id_to_pos.get? i) (fun p1 =>
      Option.bind (h.raise key' p1) (fun hm =>
        Option.bind (hm.id_to_pos.get? i) (fun pl =>
          hm.lower key' pl)))) = some h2
    rw [hget1, Option.some_bind, hraise, Option.some_bind, hget1,
      Option.some_bind, hlow]

/-- All live handles are below `nb_elem`: true in every state reachable
from the constructor by pushes within capacity (each push draws
`id_free[nb_elem] = nb_elem`). -/
def IdsSmall (h : Heap_Id) : Prop :=
  ∀ p, p < h.nb_elem → h.idAt p < h.nb_elem

/-- A live pointer is the first component of a live pair. -/
lemma livePtr_iff {h : Heap_Id} {x : ℕ} :
    LivePtr h x ↔ ∃ pr, LivePair h pr ∧ pr.1 = x := by
  constructor
  · rintro ⟨p, hp, he⟩
    exact ⟨h.elements.getD p (0, 0), ⟨p, hp, rfl⟩, he⟩
  · rintro ⟨pr, ⟨p, hp, he⟩, hx⟩
    exact ⟨p, hp, by unfold Heap_Id.ptrAt; rw [he, hx]⟩

/-- The freshly constructed heap is well formed. -/
lemma WF_mkHeap {cap : ℕ} (hcap : cap < 2 ^ 31) : WF (mkHeap cap) := by
  constructor
  · exact hcap
  · show (Array.mkArray cap ((0 : ℕ), (0 : ℕ))).size = cap
    simp
  · show (Array.mkArray cap (0 : ℕ)).size = cap
    simp
  · exact Nat.zero_le cap
  · intro p hp
    exact absurd hp (by show ¬ p < 0; omega)
  · intro a b ha _ _
    exact absurd ha (by show ¬ a < 0; omega)
  · intro p hp
    exact absurd hp (by show ¬ p < 0; omega)
  · intro k hk
    have hsz : k < (Array.range cap).size := by
      rw [Array.size_range]; exact hk
    show (Array.range cap).getD k 0 = k
    simp [Array.getD_eq_get?, Array.getElem?_lt _ hsz, Array.getElem_range]

/-- The freshly constructed heap has no live pointer. -/
lemma not_livePtr_mkHeap {cap x : ℕ} : ¬ LivePtr (mkHeap cap) x := by
  rintro ⟨p, hp, _⟩
  exact absurd hp (by show ¬ p < 0; omega)

/-- Push a list of elements in order (the claim's "n insertions"). -/
def pushList {α : Type} [LinearOrder α] (key : ℕ → α) :
    Heap_Id → List ℕ → Option Heap_Id
  | h, [] => some h
  | h, v :: vs => (h.push key v).bind fun r => pushList key r.2 vs

/-- Pop `n` times, collecting the returned pointers in order (the
claim's "n extractions"). -/
def popN {α : Type} [LinearOrder α] (key : ℕ → α) :
    Heap_Id → ℕ → Option (List ℕ × Heap_Id)
  | h, 0 => some ([], h)
  | h, n + 1 =>
    (h.pop key).bind fun r =>
      (popN key r.2 n).bind fun s => some (r.1 :: s.1, s.2)

/-- Pushing a list of pairwise-distinct fresh pointers within capacity
succeeds and preserves every invariant; the live pointers afterwards are
the old ones plus the list. -/
lemma pushList_spec {α : Type} [LinearOrder α] (key : ℕ → α) :
    ∀ (l : List ℕ) (h : Heap_Id), WF h → HeapOrdered key h → PtrsInj h →
    IdsSmall h → h.nb_elem + l.length ≤ h.capacity →
    (∀ v ∈ l, ¬ LivePtr h v) → l.Nodup →
    ∃ h', pushList key h l = some h' ∧
      h'.capacity = h.capacity ∧ h'.nb_elem = h.nb_elem + l.length ∧
      (∀ x, LivePtr h' x ↔ (LivePtr h x ∨ x ∈ l)) ∧
      WF h' ∧ HeapOrdered key h' ∧ PtrsInj h' ∧ IdsSmall h' := by
  intro l
  induction l with
  | nil =>
    intro h hWF hO hPI hIS _ _ _
    exact ⟨h, rfl, rfl, by simp, fun x => by simp, hWF, hO, hPI, hIS⟩
  | cons v vs ih =>
    intro h hWF hO hPI hIS hroom hfreshl hnd
    have hroom1 : h.nb_elem < h.capacity := by
      have := hroom; simp only [List.length_cons] at this; omega
    have hfresh : ∀ p, p < h.nb_elem → h.idAt p ≠ h.nb_elem :=
      fun p hp => Nat.ne_of_lt (hIS p hp)
    obtain ⟨h1, hrun1, hcap1, hnb1, hidf1, hpairs1, hptrs1, hWF1, hO1⟩ :=
      push_spec key v hWF hO hroom1 hfresh
    have hvnotlive : ¬ LivePtr h v := hfreshl v (List.mem_cons_self v vs)
    have hptrfresh : ∀ p, p < h.nb_elem → h.ptrAt p ≠ v :=
      fun p hp he => hvnotlive ⟨p, hp, he⟩
    have hPI1 : PtrsInj h1 := hptrs1 hptrfresh hPI
    have hIS1 : IdsSmall h1 := by
      intro p hp
      have hlp : LivePair h1 (h1.elements.getD p (0, 0)) := ⟨p, hp, rfl⟩
      rw [hpairs1] at hlp
      show (h1.elements.getD p (0, 0)).2 < h1.nb_elem
      rcases hlp with ⟨q, hq, hqe⟩ | he
      · rw [← hqe]
        have := hIS q hq
        unfold Heap_Id.idAt at this
        omega
      · rw [he, hnb1]
        omega
    have hlive1 : ∀ x, LivePtr h1 x ↔ (LivePtr h x ∨ x = v) := by
      intro x
      rw [livePtr_iff]
      constructor
      · rintro ⟨pr, hlp, hx⟩
        rw [hpairs1] at hlp
        rcases hlp with hlp | rfl
        · exact Or.inl (livePtr_iff.mpr ⟨pr, hlp, hx⟩)
        · exact Or.inr hx.symm
      · rintro (hx | rfl)
        · obtain ⟨pr, hlp, hprx⟩ := livePtr_iff.mp hx
          exact ⟨pr, (hpairs1 pr).mpr (Or.inl hlp), hprx⟩
        · exact ⟨(x, h.nb_elem), (hpairs1 _).mpr (Or.inr rfl), rfl⟩
    have hndvs : vs.Nodup := (List.nodup_cons.mp hnd).2
    have hvnotvs : v ∉ vs := (List.nodup_cons.mp hnd).1
    have hfreshvs : ∀ u ∈ vs, ¬ LivePtr h1 u := by
      intro u hu hlive
      rcases (hlive1 u).mp hlive with hl | rfl
      · exact hfreshl u (List.mem_cons_of_mem v hu) hl
      · exact hvnotvs hu
    obtain ⟨h2, hrun2, hcap2, hnb2, hlive2, hWF2, hO2, hPI2, hIS2⟩ :=
      ih h1 hWF1 hO1 hPI1 hIS1
        (by rw [hnb1, hcap1]; simp only [List.length_cons] at hroom; omega)
        hfreshvs hndvs
    refine ⟨h2, ?_, by rw [hcap2, hcap1],
      by rw [hnb2, hnb1]; simp [Nat.add_assoc, Nat.add_comm 1], ?_,
      hWF2, hO2, hPI2, hIS2⟩
    · show (h.push key v).bind (fun r => pushList key r.2 vs) = some h2
      rw [hrun1, Option.some_bind]
      exact hrun2
    · intro x
      rw [hlive2 x, hlive1 x, List.mem_cons]
      tauto

/-- Popping an ordered heap dry returns exactly the live pointers, in
non-decreasing key order and without repetition. -/
lemma popN_spec {α : Type} [LinearOrder α] (key : ℕ → α) :
    ∀ (n : ℕ) (h : Heap_Id), WF h → HeapOrdered key h → PtrsInj h →
    h.nb_elem = n →
    ∃ out h', popN key h n = some (out, h') ∧
      (∀ x, x ∈ out ↔ LivePtr h x) ∧ out.Nodup ∧
      List.Pairwise (fun a b => key a ≤ key b) out := by
  intro n
  induction n with
  | zero =>
    intro h _ _ _ hnb
    refine ⟨[], h, rfl, ?_, List.nodup_nil, List.Pairwise.nil⟩
    intro x
    simp only [List.not_mem_nil, false_iff]
    rintro ⟨p, hp, _⟩
    rw [hnb] at hp
    exact absurd hp (by show ¬ p < 0; omega)
  | succ n ih =>
    intro h hWF hO hPI hnb
    have hpos : 0 < h.nb_elem := by omega
    obtain ⟨h1, hrun1, hcap1, hnb1, hidf1, hpairs1, hptrs1, hroot, hWF1, hO1⟩ :=
      pop_spec key hWF hO hpos
    have hlive1 : ∀ x, LivePtr h1 x ↔ (LivePtr h x ∧ x ≠ h.ptrAt 0) := by
      intro x
      rw [livePtr_iff]
      constructor
      · rintro ⟨pr, hlp, hx⟩
        obtain ⟨hlp0, hne⟩ := (hpairs1 pr).mp hlp
        refine ⟨livePtr_iff.mpr ⟨pr, hlp0, hx⟩, ?_⟩
        intro he
        obtain ⟨p, hp, hpe⟩ := hlp0
        have : h.ptrAt p = h.ptrAt 0 := by
          unfold Heap_Id.ptrAt
          rw [hpe, hx, he]
          rfl
        have hp0 := hPI p 0 hp hpos this
        apply hne
        rw [← hpe, hp0]
      · rintro ⟨⟨p, hp, hpe⟩, hxv⟩
        refine ⟨h.elements.getD p (0, 0), (hpairs1 _).mpr ⟨⟨p, hp, rfl⟩, ?_⟩, hpe⟩
        intro he
        apply hxv
        rw [← hpe]
        show (h.elements.getD p (0, 0)).1 = h.ptrAt 0
        rw [he]
        rfl
    obtain ⟨out1, h2, hrun2, hmem1, hnd1, hpw1⟩ :=
      ih h1 hWF1 hO1 (hptrs1 hPI) (by omega)
    refine ⟨h.ptrAt 0 :: out1, h2, ?_, ?_, ?_, ?_⟩
    · show (h.pop key).bind (fun r =>
        (popN key r.2 n).bind fun s => some (r.1 :: s.1, s.2)) =
        some (h.ptrAt 0 :: out1, h2)
      rw [hrun1, Option.some_bind, hrun2, Option.some_bind]
    · intro x
      rw [List.mem_cons, hmem1, hlive1]
      constructor
      · rintro (rfl | ⟨hl, _⟩)
        · exact ⟨0, hpos, rfl⟩
        · exact hl
      · intro hl
        by_cases hxv : x = h.ptrAt 0
        · exact Or.inl hxv
        · exact Or.inr ⟨hl, hxv⟩
    · rw [List.nodup_cons]
      refine ⟨?_, hnd1⟩
      intro hmem
      exact ((hlive1 _).mp ((hmem1 _).mp hmem)).2 rfl
    · refine List.Pairwise.cons ?_ hpw1
      intro x hx
      obtain ⟨hl, _⟩ := (hlive1 x).mp ((hmem1 x).mp hx)
      obtain ⟨pr, hlp, hprx⟩ := livePtr_iff.mp hl
      have := hroot pr hlp
      rw [hprx] at this
      exact this

/-- C5: for every count `n` within any capacity below `2^31` and every
list of `n` distinct element pointers under an arbitrary key function
(hence an arbitrary multiset of keys), pushing all of them into a fresh
`Heap_Id` in the given order and then popping `n` times succeeds and
returns exactly the pushed elements, in non-decreasing key order. -/
theorem claim_C5_sorted_extraction {α : Type} [LinearOrder α]
    (key : ℕ → α) (cap : ℕ) (hcap : cap < 2 ^ 31) (l : List ℕ)
    (hlen : l.length ≤ cap) (hnd : l.Nodup) :
    ∃ h1 out h2, pushList key (mkHeap cap) l = some h1 ∧
      popN key h1 l.length = some (out, h2) ∧
      out.Perm l ∧ List.Pairwise (fun a b => key a ≤ key b) out := by
  have hWF0 : WF (mkHeap cap) := WF_mkHeap hcap
  have hO0 : HeapOrdered key (mkHeap cap) := by
    intro j hj0 hjn
    exact absurd hjn (by show ¬ j < 0; omega)
  have hPI0 : PtrsInj (mkHeap cap) := by
    intro p q hp _ _
    exact absurd hp (by show ¬ p < 0; omega)
  have hIS0 : IdsSmall (mkHeap cap) := by
    intro p hp
    exact absurd hp (by show ¬ p < 0; omega)
  obtain ⟨h1, hrun1, hcap1, hnb1, hlive1, hWF1, hO1, hPI1, _⟩ :=
    pushList_spec key l (mkHeap cap) hWF0 hO0 hPI0 hIS0
      (by show 0 + l.length ≤ cap; omega)
      (fun v _ => not_livePtr_mkHeap) hnd
  obtain ⟨out, h2, hrun2, hmem, hndout, hpw⟩ :=
    popN_spec key l.length h1 hWF1 hO1 hPI1
      (by rw [hnb1]; show 0 + l.length = l.length; omega)
  refine ⟨h1, out, h2, hrun1, hrun2, ?_, hpw⟩
  rw [List.perm_ext_iff_of_nodup hndout hnd]
  intro a
  rw [hmem a, hlive1 a]
  constructor
  · rintro (hl | hm)
    · exact absurd hl not_livePtr_mkHeap
    · exact hm
  · exact Or.inr

/-- Witness for C5 at a concrete instance: three distinct elements with
keys `2, 0, 1` pushed into a fresh heap of capacity `3`. -/
theorem claim_C5_sorted_extraction_witness :
    ∃ h1 out h2,
      pushList (fun x => x) (mkHeap 3) [2, 0, 1] = some h1 ∧
      popN (fun x => x) h1 ([2, 0, 1] : List ℕ).length = some (out, h2) ∧
      out.Perm [2, 0, 1] ∧
      List.Pairwise (fun a b => (fun x => x) a ≤ (fun x => x) b) out :=
  claim_C5_sorted_extraction (fun x => x) 3 (by decide) [2, 0, 1]
    (by decide) (by decide)

/-- The heap order only depends on the keys of the live pointers. -/
lemma heapOrdered_congr {α : Type} [LinearOrder α] {key key' : ℕ → α}
    {h : Heap_Id}
    (hagree : ∀ p, p < h.nb_elem → h.keyAt key' p = h.keyAt key p)
    (hO : HeapOrdered key h) : HeapOrdered key' h := by
  intro j hj0 hjn
  rw [hagree j hjn, hagree _ (lt_trans (posFather_lt hj0) hjn)]
  exact hO j hj0 hjn

/-- One client-visible heap operation, as used in claim C2's "sequence
of push, pop and reposition operations".  A push carries the key its new
element shall have; a reposition names a handle and carries the mutated
key of the element that handle names (the client writes through the
stored pointer before calling `reposition`). -/
inductive HOp (α : Type) where
  | push (v : ℕ) (k : α)
  | pop
  | reposition (i : ℕ) (k : α)
deriving DecidableEq

/-- The precondition of a single operation in claim C2's sense,
strengthened (as the amendment states) by the no-handle-collision and
distinct-pointer requirements for `push`. -/
def opOK {α : Type} [LinearOrder α] (h : Heap_Id) : HOp α → Bool
  | .push v _ =>
      decide (h.nb_elem < h.capacity) &&
      decide (∀ p, p < h.nb_elem →
        h.idAt p ≠ h.nb_elem ∧ h.ptrAt p ≠ v)
  | .pop => decide (0 < h.nb_elem)
  | .reposition i _ => decide (∃ p, p < h.nb_elem ∧ h.idAt p = i)

/-- Apply one operation to the pair (current key function, heap):
a push first gives the new element its key, a reposition first mutates
the key of the element its handle resolves to. -/
def applyOp {α : Type} [LinearOrder α] :
    ((ℕ → α) × Heap_Id) → HOp α → Option ((ℕ → α) × Heap_Id)
  | (key, h), .push v k =>
      (h.push (Function.update key v k) v).map
        (fun r => (Function.update key v k, r.2))
  | (key, h), .pop => (h.pop key).map (fun r => (key, r.2))
  | (key, h), .reposition i k =>
      (h.reposition
          (Function.update key (h.ptrAt (h.id_to_pos.getD i 0)) k) i).map
        (fun hm => (Function.update key (h.ptrAt (h.id_to_pos.getD i 0)) k, hm))

/-- Apply a sequence of operations. -/
def applyOps {α : Type} [LinearOrder α] :
    ((ℕ → α) × Heap_Id) → List (HOp α) → Option ((ℕ → α) × Heap_Id)
  | s, [] => some s
  | s, op :: ops => (applyOp s op).bind fun s' => applyOps s' ops

/-- Every operation of the sequence is called within its
precondition. -/
def seqOK {α : Type} [LinearOrder α] :
    ((ℕ → α) × Heap_Id) → List (HOp α) → Bool
  | _, [] => true
  | (key, h), op :: ops =>
      opOK h op &&
      (match applyOp (key, h) op with
       | some s' => seqOK s' ops
       | none => false)

/-- A sequence of guarded operations from a well-formed ordered state
with distinct live pointers succeeds and preserves well-formedness, the
heap order under the evolving key function, and pointer
distinctness. -/
lemma applyOps_spec {α : Type} [LinearOrder α] :
    ∀ (ops : List (HOp α)) (key : ℕ → α) (h : Heap_Id),
    WF h → HeapOrdered key h → PtrsInj h →
    seqOK (key, h) ops = true →
    ∃ key' h', applyOps (key, h) ops = some (key', h') ∧
      WF h' ∧ HeapOrdered key' h' ∧ PtrsInj h' := by
  intro ops
  induction ops with
  | nil =>
    intro key h hWF hO hPI _
    exact ⟨key, h, rfl, hWF, hO, hPI⟩
  | cons op ops ih =>
    intro key h hWF hO hPI hok
    have hok' : (opOK h op &&
        (match applyOp (key, h) op with
         | some s' => seqOK s' ops
         | none => false)) = true := hok
    rw [Bool.and_eq_true] at hok'
    obtain ⟨hop, htail⟩ := hok'
    match op with
    | .push v k =>
      simp only [opOK, Bool.and_eq_true, decide_eq_true_eq] at hop
      obtain ⟨hroom, hfresh2⟩ := hop
      have hO' : HeapOrdered (Function.update key v k) h := by
        refine heapOrdered_congr ?_ hO
        intro p hp
        unfold Heap_Id.keyAt
        rw [Function.update_noteq ((hfresh2 p hp).2)]
      obtain ⟨h1, hrun1, _, _, _, _, hptrs1, hWF1, hO1⟩ :=
        push_spec (Function.update key v k) v hWF hO' hroom
          (fun p hp => (hfresh2 p hp).1)
      have happ : applyOp (key, h) (.push v k) =
          some (Function.update key v k, h1) := by
        show (h.push (Function.update key v k) v).map
          (fun r => (Function.update key v k, r.2)) = _
        rw [hrun1]
        rfl
      rw [happ] at htail
      obtain ⟨key2, h2, hrun2, hWF2, hO2, hPI2⟩ :=
        ih (Function.update key v k) h1 hWF1 hO1
          (hptrs1 (fun p hp => (hfresh2 p hp).2) hPI) htail
      refine ⟨key2, h2, ?_, hWF2, hO2, hPI2⟩
      show (applyOp (key, h) (.push v k)).bind
        (fun s' => applyOps s' ops) = some (key2, h2)
      rw [happ, Option.some_bind]
      exact hrun2
    | .pop =>
      simp only [opOK, decide_eq_true_eq] at hop
      obtain ⟨h1, hrun1, _, _, _, _, hptrs1, _, hWF1, hO1⟩ :=
        pop_spec key hWF hO hop
      have happ : applyOp (key, h) .pop = some (key, h1) := by
        show (h.pop key).map (fun r => (key, r.2)) = _
        rw [hrun1]
        rfl
      rw [happ] at htail
      obtain ⟨key2, h2, hrun2, hWF2, hO2, hPI2⟩ :=
        ih key h1 hWF1 hO1 (hptrs1 hPI) htail
      refine ⟨key2, h2, ?_, hWF2, hO2, hPI2⟩
      show (applyOp (key, h) .pop).bind
        (fun s' => applyOps s' ops) = some (key2, h2)
      rw [happ, Option.some_bind]
      exact hrun2
    | .reposition i k =>
      simp only [opOK, decide_eq_true_eq] at hop
      obtain ⟨p0, hp0, hid⟩ := hop
      have hgp0 : h.id_to_pos.getD i 0 = p0 := by
        rw [← hid]; exact hWF.id_pos p0 hp0
      have hmut : ∀ r, r < h.nb_elem → r ≠ p0 →
          h.keyAt (Function.update key (h.ptrAt (h.id_to_pos.getD i 0)) k) r =
            h.keyAt key r := by
        intro r hr hrne
        unfold Heap_Id.keyAt
        rw [hgp0]
        refine Function.update_noteq ?_ _ _
        intro he
        exact hrne (hPI r p0 hr hp0 he)
      obtain ⟨h1, hrun1, _, _, _, _, hptrs1, hWF1, hO1⟩ :=
        reposition_spec key
          (Function.update key (h.ptrAt (h.id_to_pos.getD i 0)) k)
          hWF hO hp0 hid hmut
      have happ : applyOp (key, h) (.reposition i k) =
          some (Function.update key (h.ptrAt (h.id_to_pos.getD i 0)) k, h1) := by
        show (h.reposition
            (Function.update key (h.ptrAt (h.id_to_pos.getD i 0)) k) i).map
          (fun hm =>
            (Function.update key (h.ptrAt (h.id_to_pos.getD i 0)) k, hm)) = _
        rw [hrun1]
        rfl
      rw [happ] at htail
      obtain ⟨key2, h2, hrun2, hWF2, hO2, hPI2⟩ :=
        ih (Function.update key (h.ptrAt (h.id_to_pos.getD i 0)) k) h1
          hWF1 hO1 (hptrs1 hPI) htail
      refine ⟨key2, h2, ?_, hWF2, hO2, hPI2⟩
      show (applyOp (key, h) (.reposition i k)).bind
        (fun s' => applyOps s' ops) = some (key2, h2)
      rw [happ, Option.some_bind]
      exact hrun2

/-- C2 (amended): after any guarded sequence of push, pop and
reposition operations from a fresh heap — each within its precondition,
and with the added proviso that no push draws a handle colliding with a
live element's handle nor re-uses a live element's pointer — every
position with a child position holding an element has key at most the
child's key, under the final key function. -/
theorem claim_C2_amended_no_collision {α : Type} [LinearOrder α]
    (key : ℕ → α) (cap : ℕ) (hcap : cap < 2 ^ 31) (ops : List (HOp α))
    (hok : seqOK (key, mkHeap cap) ops = true) :
    ∃ key' h', applyOps (key, mkHeap cap) ops = some (key', h') ∧
      HeapChildOrdered key' h' := by
  have hO0 : HeapOrdered key (mkHeap cap) := by
    intro j hj0 hjn
    exact absurd hjn (by show ¬ j < 0; omega)
  have hPI0 : PtrsInj (mkHeap cap) := by
    intro p q hp _ _
    exact absurd hp (by show ¬ p < 0; omega)
  obtain ⟨key', h', hrun, _, hO', _⟩ :=
    applyOps_spec ops key (mkHeap cap) (WF_mkHeap hcap) hO0 hPI0 hok
  exact ⟨key', h', hrun, (heapOrdered_iff_child key' h').mp hO'⟩

/-- Witness for the amended C2 at a concrete guarded sequence: three
pushes with keys `5, 3, 4`, a pop, then a reposition of the element
with handle `2` after its key was mutated to `1`. -/
theorem claim_C2_amended_no_collision_witness :
    ∃ key' h',
      applyOps ((fun _ => (0 : ℕ)), mkHeap 3)
        [HOp.push 0 5, HOp.push 1 3, HOp.push 2 4, HOp.pop,
         HOp.reposition 2 1] = some (key', h') ∧
      HeapChildOrdered key' h' :=
  claim_C2_amended_no_collision (fun _ => 0) 3 (by decide)
    [HOp.push 0 5, HOp.push 1 3, HOp.push 2 4, HOp.pop,
     HOp.reposition 2 1] (by decide)

/-- The handle `i` resolves, through `id_to_pos`, to the position of the
live element `(x, i)`: the stability property of claim C3. -/
def Resolves (h : Heap_Id) (x i : ℕ) : Prop :=
  ∃ p, p < h.nb_elem ∧ h.elements.getD p (0, 0) = (x, i) ∧
    h.id_to_pos.getD i 0 = p

/-- In a well-formed state, a live pair is resolvable through its
handle. -/
lemma resolves_of_livePair {h : Heap_Id} {x i : ℕ} (hWF : WF h)
    (hlive : LivePair h (x, i)) : Resolves h x i := by
  obtain ⟨p, hp, he⟩ := hlive
  refine ⟨p, hp, he, ?_⟩
  have := hWF.id_pos p hp
  unfold Heap_Id.idAt at this
  rw [he] at this
  exact this

/-- C3 (amended): fix a well-formed ordered state `h` holding the live
element `(x, i)`.  (1) In the pop-free regime (all live handles below
`nb_elem`, as holds from the constructor) a push returns the handle
`nb_elem`, which is distinct from — indeed strictly above — the live
handle `i`, and the regime persists.  (2) The element stays resolvable
through `i` across a push drawing a non-live handle, across a pop of a
different element, and across a reposition following a single-element
key mutation. -/
theorem claim_C3_amended_handle_stability {α : Type} [LinearOrder α]
    (key : ℕ → α) (h : Heap_Id) (hWF : WF h) (hO : HeapOrdered key h)
    (x i : ℕ) (hlive : LivePair h (x, i)) :
    (∀ v, h.nb_elem < h.capacity → IdsSmall h →
      ∃ h', h.push key v = some (h.nb_elem, h') ∧ i < h.nb_elem ∧
        IdsSmall h' ∧ Resolves h' x i) ∧
    (∀ v, h.nb_elem < h.capacity →
      (∀ q, q < h.nb_elem → h.idAt q ≠ h.nb_elem) →
      ∃ h', h.push key v = some (h.nb_elem, h') ∧ Resolves h' x i) ∧
    ((x, i) ≠ h.elements.getD 0 (0, 0) → 0 < h.nb_elem →
      ∃ r h', h.pop key = some (r, h') ∧ Resolves h' x i) ∧
    (∀ (key' : ℕ → α) j p0, p0 < h.nb_elem → h.idAt p0 = j →
      (∀ r, r < h.nb_elem → r ≠ p0 → h.keyAt key' r = h.keyAt key r) →
      ∃ h', h.reposition key' j = some h' ∧ Resolves h' x i) := by
  obtain ⟨pl, hpl, hple⟩ := hlive
  have hidl : h.idAt pl = i := by
    unfold Heap_Id.idAt; rw [hple]
  refine ⟨?_, ?_, ?_, ?_⟩
  · intro v hroom hIS
    obtain ⟨h', hrun, _, hnb', _, hpairs, _, hWF', _⟩ :=
      push_spec key v hWF hO hroom (fun p hp => Nat.ne_of_lt (hIS p hp))
    refine ⟨h', hrun, hidl ▸ hIS pl hpl, ?_, ?_⟩
    · intro p hp
      have hlp : LivePair h' (h'.elements.getD p (0, 0)) := ⟨p, hp, rfl⟩
      rw [hpairs] at hlp
      show (h'.elements.getD p (0, 0)).2 < h'.nb_elem
      rcases hlp with ⟨q, hq, hqe⟩ | he
      · rw [← hqe]
        have := hIS q hq
        unfold Heap_Id.idAt at this
        rw [hnb']
        omega
      · rw [he, hnb']
        omega
    · exact resolves_of_livePair hWF'
        ((hpairs (x, i)).mpr (Or.inl ⟨pl, hpl, hple⟩))
  · intro v hroom hfresh
    obtain ⟨h', hrun, _, _, _, hpairs, _, hWF', _⟩ :=
      push_spec key v hWF hO hroom hfresh
    exact ⟨h', hrun, resolves_of_livePair hWF'
      ((hpairs (x, i)).mpr (Or.inl ⟨pl, hpl, hple⟩))⟩
  · intro hneroot hpos
    obtain ⟨h', hrun, _, _, _, hpairs, _, _, hWF', _⟩ :=
      pop_spec key hWF hO hpos
    exact ⟨h.ptrAt 0, h', hrun, resolves_of_livePair hWF'
      ((hpairs (x, i)).mpr ⟨⟨pl, hpl, hple⟩, hneroot⟩)⟩
  · intro key' j p0 hp0 hid hmut
    obtain ⟨h', hrun, _, _, _, hpairs, _, hWF', _⟩ :=
      reposition_spec key key' hWF hO hp0 hid hmut
    exact ⟨h', hrun, resolves_of_livePair hWF'
      ((hpairs (x, i)).mpr ⟨pl, hpl, hple⟩)⟩

/-- The identity key function on pointers, for concrete witnesses. -/
def keyIdNat : ℕ → ℕ := fun x => x

/-- A concrete well-formed ordered two-element state of capacity 3:
elements `(7, 0)` and `(9, 1)`. -/
def hC3w : Heap_Id :=
  { capacity := 3, elements := #[(7, 0), (9, 1), (0, 0)], nb_elem := 2,
    id_to_pos := #[0, 1, 0], id_free := #[0, 1, 2] }

/-- Witness for the amended C3 on a concrete well-formed two-element
state: the element `(7, 0)` at the root of a heap of capacity `3` with
second element `(9, 1)`. -/
theorem claim_C3_amended_handle_stability_witness :
    (∀ v, hC3w.nb_elem < hC3w.capacity → IdsSmall hC3w →
      ∃ h', hC3w.push keyIdNat v = some (hC3w.nb_elem, h') ∧
        0 < hC3w.nb_elem ∧ IdsSmall h' ∧ Resolves h' 7 0) ∧
    (∀ v, hC3w.nb_elem < hC3w.capacity →
      (∀ q, q < hC3w.nb_elem → hC3w.idAt q ≠ hC3w.nb_elem) →
      ∃ h', hC3w.push keyIdNat v = some (hC3w.nb_elem, h') ∧
        Resolves h' 7 0) ∧
    ((7, 0) ≠ hC3w.elements.getD 0 (0, 0) → 0 < hC3w.nb_elem →
      ∃ r h', hC3w.pop keyIdNat = some (r, h') ∧ Resolves h' 7 0) ∧
    (∀ (key' : ℕ → ℕ) j p0, p0 < hC3w.nb_elem → hC3w.idAt p0 = j →
      (∀ r, r < hC3w.nb_elem → r ≠ p0 →
        hC3w.keyAt key' r = hC3w.keyAt keyIdNat r) →
      ∃ h', hC3w.reposition key' j = some h' ∧ Resolves h' 7 0) :=
  claim_C3_amended_handle_stability keyIdNat hC3w
    ⟨by decide, by decide, by decide, by decide, by decide,
     by
       intro p q hp hq he
       have hp2 : p < 2 := hp
       have hq2 : q < 2 := hq
       interval_cases p <;> interval_cases q <;> revert he <;> decide,
     by decide, by decide⟩
    (by
      intro j hj0 hjn
      have hj2 : j < 2 := hjn
      interval_cases j
      decide)
    7 0 ⟨0, by decide, by decide⟩

end HeapVerify
